import Mathlib

/-!
Verification of the ORB extractor GPU kernels (orb-extractor).

This file gives a shallow embedding of the tile partitioner, the FAST
corner detector, the NMS suppressor, the orientation estimator and the
BRIEF descriptor encoder of `src/gpu/fast.cpp` and
`src/gpu/orb_descriptor.cpp`, and proves or refutes the frozen claims
about them.  Machine unsigned arithmetic is modelled on `Nat` with an
explicit wrap (`usub` below); C `int` values that stay non-negative are
modelled as `Nat`; pixel intensities are modelled as integers; the
float-valued orientation code is modelled in exact rational arithmetic.
-/

namespace Orb

/-- `2^32`, the modulus of the `uint32_t` arithmetic used by the kernels. -/
def U : ℕ := 2 ^ 32

/-- Wrapping unsigned subtraction `a - b` in `uint32_t` arithmetic,
for `a b < 2^32`. -/
def usub (a b : ℕ) : ℕ := (a + (U - b % U)) % U

/-- The detection-configuration parameters of `FastKernelParams`
(the subset the tile partitioner and range computation read). -/
structure Params where
  image_cols : ℕ
  image_rows : ℕ
  edge_clip : ℕ
  overlap : ℕ
  cell_size : ℕ
  num_images : ℕ

/-- `align(total, grain) = divUp(total, grain) * grain` from `device_impl.h`. -/
def align (total grain : ℕ) : ℕ := (total + grain - 1) / grain * grain

/-- Row-bound generation of `FastExtKernel::UpdateGroupPosition`
(`fast.cpp`): for `j < image_rows / cell_size + 1` the window starting at
`min_border_y + j*cell_size` is kept unless it starts at or past
`max_border_y - overlap` (computed in `uint32_t`), and its end is clamped
to `max_border_y`. -/
def groupY (p : Params) : List (ℕ × ℕ) :=
  let minBorder := p.edge_clip
  let maxBorder := usub p.image_rows p.edge_clip
  let numRows := p.image_rows / p.cell_size + 1
  (List.range numRows).filterMap (fun j =>
    let min_y := minBorder + j * p.cell_size
    if usub maxBorder p.overlap ≤ min_y then none
    else
      let max_y := min_y + p.cell_size + p.overlap
      some (min_y, if maxBorder < max_y then maxBorder else max_y))

/-- State of the column-tiling `while (1)` loop of `UpdateGroupPosition`:
`blk_idx`, `image_count`, `min_x`, `current_width` and the accumulated
`group_x` vector.  (`max_x` is recomputed in every push, so it is not
part of the state.) -/
structure ColState where
  blk_idx : ℕ
  image_count : ℕ
  min_x : ℕ
  current_width : ℕ
  acc : List (ℕ × ℕ)

/-- `mono_width = (int)(image_cols / num_images)`. -/
def monoWidth (p : Params) : ℕ := p.image_cols / p.num_images

/-- One iteration of the column-tiling loop.  `Sum.inr` is the `break`
(after the final `pop_back`), `Sum.inl` continues with the next state.
Comparisons against `current_width - edge_clip` and
`total_width - edge_clip` are `int`-vs-`uint32_t` comparisons in the
source: the subtractions wrap via `usub`, and the `int` side
(`min_x + cell_size`, and the fresh `min_x` at the break test) is
converted to `uint32_t`, modelled by `% U`.  The `max_x` clamp
comparison is modelled on the unconverted value; it is exact whenever
`max_x` fits `uint32`, which holds under every hypothesis used in the
theorems below. -/
def colStep (p : Params) (s : ColState) : ColState ⊕ List (ℕ × ℕ) :=
  if (s.min_x + p.cell_size) % U < usub s.current_width p.edge_clip then
    let min_x := s.blk_idx * p.cell_size + monoWidth p * s.image_count + p.edge_clip
    let max_x0 := min_x + p.cell_size + p.overlap
    let max_x := if usub s.current_width p.edge_clip < max_x0
                 then usub s.current_width p.edge_clip else max_x0
    let acc := s.acc ++ [(min_x, max_x)]
    if usub p.image_cols p.edge_clip < min_x % U then
      Sum.inr acc.dropLast
    else
      Sum.inl ⟨s.blk_idx + 1, s.image_count, min_x, s.current_width, acc⟩
  else
    Sum.inl ⟨0, s.image_count + 1, s.min_x, s.current_width + monoWidth p, s.acc⟩

/-- The initial state of the column-tiling loop. -/
def colInit (p : Params) : ColState := ⟨0, 0, 0, monoWidth p, []⟩

/-- Fuel-indexed run of the column-tiling loop; `none` means the loop has
not terminated within `fuel` iterations. -/
def colRun (p : Params) : ℕ → ColState → Option (List (ℕ × ℕ))
  | 0, _ => none
  | fuel + 1, s =>
    match colStep p s with
    | Sum.inr out => some out
    | Sum.inl s' => colRun p fuel s'

/-- The column bounds produced by `UpdateGroupPosition`, with the given
fuel for the `while (1)` loop. -/
def groupX (p : Params) (fuel : ℕ) : Option (List (ℕ × ℕ)) :=
  colRun p fuel (colInit p)

/-- The degenerate-region check of `FastExtKernel::getGlobalRange`:
`min_border_x > max_border_x || min_border_y > max_border_y`, all four
borders being `uint32_t` values. -/
def getGlobalRangeThrows (p : Params) : Bool :=
  usub p.image_cols p.edge_clip < p.edge_clip ||
  usub p.image_rows p.edge_clip < p.edge_clip

/-! ### The FAST pixel test (`fastExtKernelImpl::operator()`) -/

/-- Images: intensity as a function of `(x, y)`.  The flat pointer
arithmetic `img[dy*step + dx]` of the source is the access at
`(x + dx, y + dy)` of the row-major layout. -/
def Img := ℤ → ℤ → ℤ

/-- The 16-point radius-3 circle in the order laid down by the
`UPDATE_MASK`/`LOAD2` macros: index `idx` is the offset passed as `ofs`
(with `ofs = dy*step + dx`), index `idx + 8` its negation. -/
def circleOfs : ℕ → ℤ × ℤ
  | 0 => (3, 0) | 1 => (3, -1) | 2 => (2, -2) | 3 => (1, -3)
  | 4 => (0, -3) | 5 => (-1, -3) | 6 => (-2, -2) | 7 => (-3, -1)
  | 8 => (-3, 0) | 9 => (-3, 1) | 10 => (-2, 2) | 11 => (-1, 3)
  | 12 => (0, 3) | 13 => (1, 3) | 14 => (2, 2) | 15 => (3, 1)
  | _ => (0, 0)

/-- Circle point `k` around `(x, y)`. -/
def circPt (img : Img) (x y : ℤ) (k : ℕ) : ℤ :=
  img (x + (circleOfs k).1) (y + (circleOfs k).2)

/-- Bit `k` of the dark mask `m0`: circle point `k` is `< t0 = v - threshold`. -/
def darkBit (img : Img) (θ : ℕ) (x y : ℤ) (k : ℕ) : Bool :=
  circPt img x y k < img x y - (θ : ℤ)

/-- Bit `k` of the bright mask `m1`: circle point `k` is `> t1 = v + threshold`. -/
def brightBit (img : Img) (θ : ℕ) (x y : ℤ) (k : ℕ) : Bool :=
  img x y + (θ : ℤ) < circPt img x y k

/-- Accumulate the mask bits set by the `UPDATE_MASK(idx, ofs)` calls in
`idxs`: each call ORs in bit `idx` (point `idx`) and bit `idx + 8`
(point `idx + 8`). -/
def maskBits (bit : ℕ → Bool) (idxs : List ℕ) : ℕ :=
  idxs.foldl (fun m idx =>
    m ||| ((bit idx).toNat <<< idx) ||| ((bit (idx + 8)).toNat <<< (idx + 8))) 0

/-- `CHECK0(i)` / `CHECK1(i)`: the 9-bit window at `i` is fully set in the
duplicated mask. -/
def checkWindow (m : ℕ) (i : ℕ) : Bool := (m &&& (511 <<< i)) == 511 <<< i

/-- The staged FAST-16 pixel test of `fastExtKernelImpl::operator()`:
axis pair, even compass pairs with the `EVEN_MASK = 85` fold, full circle
with the `255` fold, then the 16 `CHECK` windows on the duplicated
masks. -/
def isFastPixel (img : Img) (θ : ℕ) (x y : ℤ) : Bool :=
  let d := darkBit img θ x y
  let b := brightBit img θ x y
  let m0a := maskBits d [0]
  let m1a := maskBits b [0]
  if m0a ||| m1a == 0 then false
  else
    let m0b := maskBits d [0, 2, 4, 6]
    let m1b := maskBits b [0, 2, 4, 6]
    if ((m0b ||| (m0b >>> 8)) &&& 85) != 85 && ((m1b ||| (m1b >>> 8)) &&& 85) != 85 then
      false
    else
      let m0 := maskBits d [0, 2, 4, 6, 1, 3, 5, 7]
      let m1 := maskBits b [0, 2, 4, 6, 1, 3, 5, 7]
      if ((m0 ||| (m0 >>> 8)) &&& 255) != 255 && ((m1 ||| (m1 >>> 8)) &&& 255) != 255 then
        false
      else
        let m0dup := m0 ||| (m0 <<< 16)
        let m1dup := m1 ||| (m1 <<< 16)
        (List.range 16).any (fun i => checkWindow m0dup i) ||
          (List.range 16).any (fun i => checkWindow m1dup i)

/-! ### The corner score (`nmsExt::cornerScore`) -/

/-- The `(short)` cast applied to each difference in `LOAD2`. -/
def toShort (z : ℤ) : ℤ := (z + 2 ^ 15) % 2 ^ 16 - 2 ^ 15

/-- `d[k] = (short)(v - img[ofs_k])`, `k < 16`, same circle order as the
mask bits. -/
def dVal (img : Img) (x y : ℤ) (k : ℕ) : ℤ :=
  toShort (img x y - circPt img x y (k % 16))

/-- The chain `a = min(d[(k+1)&15], d[(k+2)&15]); a = min(a, d[(k+3)&15]);
…; a = min(a, d[(k+8)&15])`. -/
def arcMinA (d : ℕ → ℤ) (k : ℕ) : ℤ :=
  [2, 3, 4, 5, 6, 7, 8].foldl (fun a j => min a (d ((k + j) % 16))) (d ((k + 1) % 16))

/-- The chain `b = max(d[(k+1)&15], d[(k+2)&15]); …; b = max(b, d[(k+8)&15])`. -/
def arcMaxB (d : ℕ → ℤ) (k : ℕ) : ℤ :=
  [2, 3, 4, 5, 6, 7, 8].foldl (fun b j => max b (d ((k + j) % 16))) (d ((k + 1) % 16))

/-- The first loop of `cornerScore`: `a0` starts at `0` and for each even
`k` is raised to `min(a, d[k & 15])` and `min(a, d[(k+9) & 15])`. -/
def a0Code (d : ℕ → ℤ) : ℤ :=
  [0, 2, 4, 6, 8, 10, 12, 14].foldl (fun a0 k =>
    let a := arcMinA d k
    max (max a0 (min a (d (k % 16)))) (min a (d ((k + 9) % 16)))) 0

/-- The second loop of `cornerScore`: `b0` starts at `-a0` and for each
even `k` is lowered to `max(b, d[k])` and `max(b, d[(k+9) & 15])`. -/
def b0Code (d : ℕ → ℤ) (init : ℤ) : ℤ :=
  [0, 2, 4, 6, 8, 10, 12, 14].foldl (fun b0 k =>
    let b := arcMaxB d k
    min (min b0 (max b (d k))) (max b (d ((k + 9) % 16)))) init

/-- `nmsExt::cornerScore`: returns `-b0 - 1`. -/
def cornerScore (img : Img) (x y : ℤ) : ℤ :=
  let d := dVal img x y
  let a0 := a0Code d
  let b0 := b0Code d (-a0)
  (0 : ℤ) - b0 - 1

/-! ### The suppressor (`nmsExt::operator()`) -/

/-- Keypoint records.  The field layout `{pt.x, pt.y, response, angle}` is
the one written by the kernels; coordinates are integers, `response` and
`angle` rationals (exact-arithmetic model of the `float` fields). -/
structure PartKey where
  x : ℤ
  y : ℤ
  response : ℚ
  angle : ℚ
deriving DecidableEq

/-- The acceptance test of `nmsExt::operator()` for the candidate at
`(ax, ay)`.  `xtabGX` is `group_pos_x_ptr[group_x]`, `ytabGY` is
`group_pos_y_ptr[group_y]`, and `xtabGY` is `group_pos_x_ptr[group_y]` —
the source computes the tile-relative `y` from the **column** table
indexed by the tile row (`ay - params.group_pos_x_ptr[group_y].x()`). -/
def nmsAccept (img : Img) (xtabGX xtabGY ytabGY : ℤ × ℤ) (ax ay : ℤ) : Bool :=
  let cols := xtabGX.2 - xtabGX.1
  let rows := ytabGY.2 - ytabGY.1
  let x := ax - xtabGX.1
  let y := ay - xtabGY.1
  let s := cornerScore img ax ay
  ((decide (x < 4) || decide (s > cornerScore img (ax - 1) ay)) &&
   (decide (y < 4) || decide (s > cornerScore img ax (ay - 1)))) &&
  ((decide (x ≥ cols - 4) || decide (s > cornerScore img (ax + 1) ay)) &&
   (decide (y ≥ rows - 4) || decide (s > cornerScore img ax (ay + 1))) &&
   (decide (x < 4) || decide (y < 4) || decide (s > cornerScore img (ax - 1) (ay - 1))) &&
   (decide (x ≥ cols - 4) || decide (y < 4) || decide (s > cornerScore img (ax + 1) (ay - 1))) &&
   (decide (x < 4) || decide (y ≥ rows - 4) || decide (s > cornerScore img (ax - 1) (ay + 1))) &&
   (decide (x ≥ cols - 4) || decide (y ≥ rows - 4) || decide (s > cornerScore img (ax + 1) (ay + 1))))

/-- The record written by the suppressor on acceptance:
`{x - edge_clip, y - edge_clip, response = s, angle = -1}`. -/
def nmsRecord (edge : ℕ) (ax ay s : ℤ) : PartKey :=
  { x := ax - (edge : ℤ), y := ay - (edge : ℤ), response := (s : ℚ), angle := -1 }

/-- The write performed by the non-NMS path of `fastExtImpl`: only
`pt.x`, `pt.y` and `angle` are assigned; `response` keeps whatever the
buffer slot held. -/
def rawWrite (edge : ℕ) (old : PartKey) (ax ay : ℤ) : PartKey :=
  { old with x := ax - (edge : ℤ), y := ay - (edge : ℤ), angle := -1 }

/-! ### Per-tile detection pass (`ORBKernel::fastExtImpl` kernel body) -/

/-- The pixels visited by the work-group assigned to the tile
`[minX, maxX) × [minY, maxY)` that pass the per-pixel FAST test (and the
mask test when enabled), in the canonical thread order.  A thread
`(l_x, l_y)` visits `g_x = l_x + minX + 3`,
`g_y = l_y*ROWS_PER_THREAD + minY + 3 + i` for `i < 8`, guarded by
`g_x < maxX - 3 && g_y + i < maxY - 3`; `LW`/`LH` are the local range
from `getLocalRange`. -/
def tileCandidates (img msk : Img) (maskCheck : Bool) (θ : ℕ)
    (minX maxX minY maxY : ℤ) (LW LH : ℕ) : List (ℤ × ℤ) :=
  (List.range LW).flatMap (fun lx =>
    (List.range LH).flatMap (fun ly =>
      (List.range 8).filterMap (fun i =>
        let gx := minX + (lx : ℤ) + 3
        let gy := minY + (ly : ℤ) * 8 + 3 + (i : ℤ)
        if gx < maxX - 3 ∧ gy < maxY - 3 then
          if maskCheck ∧ msk gx gy = 0 then none
          else if isFastPixel img θ gx gy then some (gx, gy) else none
        else none)))

/-- The NMS survivors of a candidate list, with their written records. -/
def nmsSurvivors (img : Img) (edge : ℕ) (xtabGX xtabGY ytabGY : ℤ × ℤ)
    (cands : List (ℤ × ℤ)) : List PartKey :=
  cands.filterMap (fun c =>
    if nmsAccept img xtabGX xtabGY ytabGY c.1 c.2 then
      some (nmsRecord edge c.1 c.2 (cornerScore img c.1 c.2))
    else none)

/-- Apply a list of slot updates to the global keypoint buffer starting
at slot `start` (the value the global atomic counter had when the tile
began writing). -/
def writeSlots (buf : ℕ → PartKey) (start : ℕ) (ws : List (PartKey → PartKey)) :
    ℕ → PartKey :=
  fun i => if start ≤ i then
    match ws.get? (i - start) with
    | some w => w (buf i)
    | none => buf i
  else buf i

/-- The per-tile body of the detection kernel (`fastExtImpl`): detect at
`ini`; with NMS, suppress, and if no survivor rerun detect+suppress at
`minT`; without NMS, rerun detect at `minT` if there was no candidate,
then write all candidates raw.  Returns the updated buffer, the new
global counter, and the list of thresholds the detect phase ran at. -/
def fastExtTile (img msk : Img) (maskCheck nmsOn : Bool) (ini minT edge : ℕ)
    (xtabGX xtabGY ytabGY : ℤ × ℤ) (minX maxX minY maxY : ℤ) (LW LH : ℕ)
    (buf : ℕ → PartKey) (start : ℕ) : (ℕ → PartKey) × ℕ × List ℕ :=
  if nmsOn then
    let s1 := nmsSurvivors img edge xtabGX xtabGY ytabGY
      (tileCandidates img msk maskCheck ini minX maxX minY maxY LW LH)
    if s1 = [] then
      let s2 := nmsSurvivors img edge xtabGX xtabGY ytabGY
        (tileCandidates img msk maskCheck minT minX maxX minY maxY LW LH)
      (writeSlots buf start (s2.map (fun k _ => k)), start + s2.length, [ini, minT])
    else
      (writeSlots buf start (s1.map (fun k _ => k)), start + s1.length, [ini])
  else
    let c1 := tileCandidates img msk maskCheck ini minX maxX minY maxY LW LH
    let cs := if c1 = [] then
        tileCandidates img msk maskCheck minT minX maxX minY maxY LW LH
      else c1
    let log := if c1 = [] then [ini, minT] else [ini]
    (writeSlots buf start (cs.map (fun c old => rawWrite edge old c.1 c.2)),
      start + cs.length, log)

/-- `fastExtImpl` calls `getGlobalRange` (which throws on a degenerate
clipped region) before submitting the kernel: a throw yields an error
and no kernel ever runs. -/
def fastSetup (p : Params) : Except String Unit :=
  if getGlobalRangeThrows p then Except.error "Unsupported scale factor"
  else Except.ok ()

/-! ### Orientation (`computeOrientation`), exact-arithmetic model of the
float code -/

/-- `_DBL_EPSILON = 2.2204460492503131e-16f`. -/
def epsF : ℚ := 22204460492503131 / 10 ^ 32

/-- `57.29577951308232` (degrees per radian). -/
def rad2deg : ℚ := 5729577951308232 / 10 ^ 14

/-- `atan2_p1 = 0.9997878412794807f * 57.29577951308232f`. -/
def atan2P1 : ℚ := (9997878412794807 / 10 ^ 16) * rad2deg

/-- `atan2_p3 = -0.3258083974640975f * 57.29577951308232f`. -/
def atan2P3 : ℚ := -(3258083974640975 / 10 ^ 16) * rad2deg

/-- `atan2_p5 = 0.1555786518463281f * 57.29577951308232f`. -/
def atan2P5 : ℚ := (1555786518463281 / 10 ^ 16) * rad2deg

/-- `atan2_p7 = -0.04432655554792128f * 57.29577951308232f`. -/
def atan2P7 : ℚ := -(4432655554792128 / 10 ^ 17) * rad2deg

/-- The odd rational polynomial of `fastAtan2`. -/
def atanPoly (c : ℚ) : ℚ :=
  (((atan2P7 * (c * c) + atan2P5) * (c * c) + atan2P3) * (c * c) + atan2P1) * c

/-- `computeOrientation::fastAtan2` with the float operations idealized
to exact rational arithmetic.  This idealization backs the orientation
pipeline of the frame-effect theorems; `fastAtan2F` below gives the
exact `binary32` semantics, under which the range claim of the spec
fails. -/
def fastAtan2 (y x : ℚ) : ℚ :=
  let ax := |x|
  let ay := |y|
  let a :=
    if ay ≤ ax then atanPoly (ay / (ax + epsF))
    else 90 - atanPoly (ax / (ay + epsF))
  let a2 := if x < 0 then 180 - a else a
  if y < 0 then 360 - a2 else a2

/-- The inclusive integer range `[a, b]` as a list. -/
def intRange (a b : ℤ) : List ℤ :=
  (List.range (b - a + 1).toNat).map (fun i => a + (i : ℤ))

/-- The first moment `m_10` of `computeOrientation::operator()`: centre
line plus the paired lines `v` and `-v` with half-extent `u_max[v]`. -/
def momentM10 (img : Img) (umax : ℕ → ℤ) (cx cy : ℤ) : ℤ :=
  ((intRange (-15) 15).map (fun u => u * img (cx + u) cy)).sum +
    ((intRange 1 15).map (fun v =>
      ((intRange (-(umax v.toNat)) (umax v.toNat)).map
        (fun u => u * (img (cx + u) (cy + v) + img (cx + u) (cy - v)))).sum)).sum

/-- The first moment `m_01`: `v * v_sum` summed over the line pairs. -/
def momentM01 (img : Img) (umax : ℕ → ℤ) (cx cy : ℤ) : ℤ :=
  ((intRange 1 15).map (fun v =>
    v * ((intRange (-(umax v.toNat)) (umax v.toNat)).map
      (fun u => img (cx + u) (cy + v) - img (cx + u) (cy - v))).sum)).sum

/-- The angle assigned to a keypoint at `(cx, cy)`:
`fastAtan2((float)m_01, (float)m_10)`. -/
def orientationAngle (img : Img) (umax : ℕ → ℤ) (cx cy : ℤ) : ℚ :=
  fastAtan2 ((momentM01 img umax cx cy : ℤ) : ℚ) ((momentM10 img umax cx cy : ℤ) : ℚ)

/-! ### Descriptor (`computeDescriptor`), exact-arithmetic model -/

/-- `_PI = 3.14159265358979f`. -/
def piQ : ℚ := 314159265358979 / 10 ^ 14

/-- The cosine core polynomial `_cos`. -/
def cosPoly (v : ℚ) : ℚ :=
  (99940307 / 10 ^ 8 : ℚ) + v * v * (-(49558072 / 10 ^ 8 : ℚ) +
    (3679168 / 10 ^ 8 : ℚ) * (v * v))

/-- `computeDescriptor::cos`: range-reduce by `2π`, then quadrant cases. -/
def cosQ (v : ℚ) : ℚ :=
  let tp := 2 * piQ
  let w := |v - (⌊v * (1 / tp)⌋ : ℤ) * tp|
  if w < piQ / 2 then cosPoly w
  else if w < piQ then -cosPoly (w - piQ)
  else if w < 3 * (piQ / 2) then -cosPoly (w - piQ)
  else cosPoly (tp - w)

/-- `computeDescriptor::sin(v) = cos(π/2 - v)`. -/
def sinQ (v : ℚ) : ℚ := cosQ (piQ / 2 - v)

/-- `std::rint`: round to nearest, ties to even. -/
def rintQ (q : ℚ) : ℤ :=
  let f := ⌊q⌋
  if q - (f : ℚ) < 1 / 2 then f
  else if (1 : ℚ) / 2 < q - (f : ℚ) then f + 1
  else if f % 2 = 0 then f else f + 1

/-! ### Exact `binary32` semantics of `fastAtan2` -/

/-- Floor of the base-2 logarithm of a positive rational, by fuelled
halving/doubling.  Fuel 600 covers binary exponents `-600..600`, far
beyond every value arising in `fastAtan2` (whose intermediates stay
within the `binary32` normal range and products thereof). -/
def ilog2Aux : ℕ → ℚ → ℤ → ℤ
  | 0, _, e => e
  | fuel + 1, m, e =>
    if 2 ≤ m then ilog2Aux fuel (m / 2) (e + 1)
    else if m < 1 then ilog2Aux fuel (m * 2) (e - 1)
    else e

/-- `⌊log₂ m⌋` for positive `m` in the modelled range. -/
def ilog2Q (m : ℚ) : ℤ := ilog2Aux 600 m 0

/-- `std::fabs` (kept `if`-based so concrete values reduce). -/
def absQ (q : ℚ) : ℚ := if q < 0 then -q else q

/-- Round a rational to the nearest `binary32` value, ties to even: the
value is scaled by the unit in the last place at its exponent (clamped
to the subnormal exponent `-126`), rounded to an integer with ties to
even, and scaled back.  Exact on every representable value; overflow
beyond `2^128` is not modelled (no value in these proofs comes near
it). -/
def roundF32 (q : ℚ) : ℚ :=
  if q = 0 then 0
  else
    let e0 : ℤ := ilog2Q (absQ q)
    let e : ℤ := if e0 < -126 then -126 else e0
    let ulp : ℚ := 2 ^ (e - 23)
    (rintQ (q / ulp) : ℚ) * ulp

/-- The float literal `57.29577951308232f` shared by the `atan2_p*`
macros. -/
def rad2degF : ℚ := roundF32 (5729577951308232 / 10 ^ 14)

/-- `atan2_p1 = 0.9997878412794807f * 57.29577951308232f` in
`binary32`. -/
def atan2P1F : ℚ := roundF32 (roundF32 (9997878412794807 / 10 ^ 16) * rad2degF)

/-- `atan2_p3 = -0.3258083974640975f * 57.29577951308232f` in
`binary32`. -/
def atan2P3F : ℚ := roundF32 (-roundF32 (3258083974640975 / 10 ^ 16) * rad2degF)

/-- `atan2_p5 = 0.1555786518463281f * 57.29577951308232f` in
`binary32`. -/
def atan2P5F : ℚ := roundF32 (roundF32 (1555786518463281 / 10 ^ 16) * rad2degF)

/-- `atan2_p7 = -0.04432655554792128f * 57.29577951308232f` in
`binary32`. -/
def atan2P7F : ℚ := roundF32 (-roundF32 (4432655554792128 / 10 ^ 17) * rad2degF)

/-- `_DBL_EPSILON = 2.2204460492503131e-16f` as a `binary32` value
(exactly `2^(-52)`). -/
def epsF32 : ℚ := roundF32 (22204460492503131 / 10 ^ 32)

/-- `(((atan2_p7*c2 + atan2_p5)*c2 + atan2_p3)*c2 + atan2_p1) * c` with
a `binary32` rounding after every operation. -/
def atanPolyF (c2 c : ℚ) : ℚ :=
  roundF32 (roundF32 (roundF32 (roundF32 (roundF32 (roundF32 (roundF32
    (atan2P7F * c2) + atan2P5F) * c2) + atan2P3F) * c2) + atan2P1F) * c)

/-- `computeOrientation::fastAtan2` with exact `binary32` float
semantics: every arithmetic operation (including the compile-time
constant folding of the coefficient macros) rounds to nearest-even
`float`. -/
def fastAtan2F (y x : ℚ) : ℚ :=
  let ax := absQ x
  let ay := absQ y
  let a :=
    if ay ≤ ax then
      let c := roundF32 (ay / roundF32 (ax + epsF32))
      atanPolyF (roundF32 (c * c)) c
    else
      let c := roundF32 (ax / roundF32 (ay + epsF32))
      roundF32 (90 - atanPolyF (roundF32 (c * c)) c)
  let a2 := if x < 0 then roundF32 (180 - a) else a
  if y < 0 then roundF32 (360 - a2) else a2

/-- `GET_VALUE(idx)`: sample the (Gaussian) image at the pattern entry
`idx` rotated by `(cosa, sina)` and rounded with `rint`; the row offset
is `rint(p0*sina + p1*cosa)`, the column offset `rint(p0*cosa - p1*sina)`. -/
def getValueQ (gimg : Img) (cx cy : ℤ) (pattern : ℕ → ℚ) (cosa sina : ℚ)
    (idx : ℕ) : ℤ :=
  gimg (cx + rintQ (pattern (idx * 2) * cosa - pattern (idx * 2 + 1) * sina))
    (cy + rintQ (pattern (idx * 2) * sina + pattern (idx * 2 + 1) * cosa))

/-- One output byte of the descriptor: 8 strict `<` comparisons of pattern
pairs, ORed in at bits 0…7.  `base` is the pattern-entry offset of the
byte (the source advances `pattern` by 16 entries per byte). -/
def descByte (gimg : Img) (cx cy : ℤ) (pattern : ℕ → ℚ) (cosa sina : ℚ)
    (base : ℕ) : ℕ :=
  (List.range 8).foldl (fun val b =>
    val ||| ((decide (getValueQ gimg cx cy pattern cosa sina (base + 2 * b) <
      getValueQ gimg cx cy pattern cosa sina (base + 2 * b + 1))).toNat <<< b)) 0

/-- The 32 descriptor bytes of one keypoint, given `(cosa, sina)`. -/
def descBytes (gimg : Img) (cx cy : ℤ) (pattern : ℕ → ℚ) (cosa sina : ℚ) :
    List ℕ :=
  (List.range 32).map (fun i => descByte gimg cx cy pattern cosa sina (16 * i))

/-- `0.01745329251994329547f` (radians per degree). -/
def degToRad : ℚ := 1745329251994329547 / 10 ^ 20

/-- The full descriptor computation for one keypoint record. -/
def computeDescKP (gimg : Img) (pattern : ℕ → ℚ) (kp : PartKey) : List ℕ :=
  let angle := kp.angle * degToRad
  descBytes gimg kp.x kp.y pattern (cosQ angle) (sinQ angle)

/-! ### The orientation+descriptor launch (`ORBKernel::orbDescriptorImpl`) -/

/-- The global state the descriptor launch mutates: the keypoint buffer
and the flat descriptor byte buffer. -/
structure DescState where
  kps : ℕ → PartKey
  descs : ℕ → ℕ

/-- One work item of the fused orientation+descriptor kernel: guarded by
`idx < num_keypoints` in both `computeOrientation::operator()` and
`computeDescriptor::operator()`; writes only the keypoint's `angle` and
its 32 descriptor bytes. -/
def descWorkItem (img gimg : Img) (umax : ℕ → ℤ) (pattern : ℕ → ℚ) (n : ℕ)
    (st : DescState) (idx : ℕ) : DescState :=
  if idx < n then
    let kp := st.kps idx
    let kp' := { kp with angle := orientationAngle img umax kp.x kp.y }
    let bytes := computeDescKP gimg pattern kp'
    { kps := fun j => if j = idx then kp' else st.kps j,
      descs := fun j =>
        if 32 * idx ≤ j ∧ j < 32 * idx + 32 then bytes.getD (j - 32 * idx) (st.descs j)
        else st.descs j }
  else st

/-- The kernel launch: a 1-D range of `align(num_keypoints, 16)` work
items with local size 16. -/
def orbDescriptorLaunch (img gimg : Img) (umax : ℕ → ℤ) (pattern : ℕ → ℚ)
    (n : ℕ) (st : DescState) : DescState :=
  (List.range (align n 16)).foldl (descWorkItem img gimg umax pattern n) st

/-! ### Claim-side (specification) definitions -/

/-- An 8-bit image: every intensity lies in `[0, 255]` (the kernels are
instantiated at `T = uint8_t`). -/
def ImgByte (img : Img) : Prop := ∀ x y : ℤ, 0 ≤ img x y ∧ img x y ≤ 255

/-- Min over the contiguous 9-point arc starting at circle point `r`. -/
def arcMin9 (d : ℕ → ℤ) (r : ℕ) : ℤ :=
  [1, 2, 3, 4, 5, 6, 7, 8].foldl (fun a j => min a (d ((r + j) % 16))) (d (r % 16))

/-- Max over the contiguous 9-point arc starting at circle point `r`. -/
def arcMax9 (d : ℕ → ℤ) (r : ℕ) : ℤ :=
  [1, 2, 3, 4, 5, 6, 7, 8].foldl (fun a j => max a (d ((r + j) % 16))) (d (r % 16))

/-- The corner-score reference formula exactly as the specification
sentence states it: over the 8 rotations (even starting points) of a
contiguous **8-point** arc, min over the arc then max over rotations for
the dark case; symmetrically max-over-arc then min-over-rotations for
the bright case seeded with the negated dark result; final score
`-(min-over-rotations-of-max) - 1`. -/
def cornerScoreSpec8 (img : Img) (x y : ℤ) : ℤ :=
  let d := dVal img x y
  let dark := [2, 4, 6, 8, 10, 12, 14].foldl (fun a k => max a (arcMinA d k)) (arcMinA d 0)
  let bright := [2, 4, 6, 8, 10, 12, 14].foldl (fun b k => min b (arcMaxB d k))
    (min (-dark) (arcMaxB d 0))
  (0 : ℤ) - bright - 1

/-- The corrected reference formula: all 16 rotations of a contiguous
**9-point** arc, with the dark maximum seeded at `0`; bright case seeded
with the negated dark result; final score
`-(min-over-rotations-of-max) - 1`. -/
def cornerScoreSpec9 (img : Img) (x y : ℤ) : ℤ :=
  let d := dVal img x y
  let dark := (List.range 16).foldl (fun a r => max a (arcMin9 d r)) 0
  let bright := (List.range 16).foldl (fun b r => min b (arcMax9 d r)) (-dark)
  (0 : ℤ) - bright - 1

/-- The eight neighbour offsets, in the order the suppressor tests them. -/
def neighbors8 : List (ℤ × ℤ) :=
  [(-1, 0), (0, -1), (1, 0), (0, 1), (-1, -1), (1, -1), (-1, 1), (1, 1)]

/-- The claim's exemption: the neighbour lies within `overlap` pixels of
the tile edge (outside the tile interior). -/
def neighborNonCompeting (ov : ℕ) (minX maxX minY maxY nx ny : ℤ) : Bool :=
  decide (nx < minX + (ov : ℤ)) || decide (maxX - (ov : ℤ) ≤ nx) ||
  decide (ny < minY + (ov : ℤ)) || decide (maxY - (ov : ℤ) ≤ ny)

/-- The NMS acceptance rule exactly as claim C1 states it: the candidate
is accepted iff its corner score strictly exceeds the score of every
8-neighbour that is itself a FAST candidate, a neighbour within
`overlap` of the tile edge being automatically non-competing. -/
def claimC1Accept (img : Img) (θ ov : ℕ) (minX maxX minY maxY ax ay : ℤ) : Bool :=
  neighbors8.all (fun nb =>
    neighborNonCompeting ov minX maxX minY maxY (ax + nb.1) (ay + nb.2) ||
    !isFastPixel img θ (ax + nb.1) (ay + nb.2) ||
    decide (cornerScore img ax ay > cornerScore img (ax + nb.1) (ay + nb.2)))

/-- The guard the source actually applies for the neighbour direction
`nb`: the **candidate's** tile-relative coordinate is within the fixed
margin `4` of the corresponding tile edge. -/
def codeGuard (cols rows x y : ℤ) (nb : ℤ × ℤ) : Bool :=
  (decide (nb.1 = -1) && decide (x < 4)) ||
  (decide (nb.1 = 1) && decide (x ≥ cols - 4)) ||
  (decide (nb.2 = -1) && decide (y < 4)) ||
  (decide (nb.2 = 1) && decide (y ≥ rows - 4))

/-- The amended acceptance rule: score strictly exceeds every 8-neighbour
that is a FAST candidate at the same threshold, except that a comparison
is skipped whenever `codeGuard` fires for that direction. -/
def amendedC1Accept (img : Img) (θ : ℕ) (xtabGX xtabGY ytabGY : ℤ × ℤ)
    (ax ay : ℤ) : Prop :=
  ∀ nb ∈ neighbors8,
    codeGuard (xtabGX.2 - xtabGX.1) (ytabGY.2 - ytabGY.1)
      (ax - xtabGX.1) (ay - xtabGY.1) nb = true ∨
    (isFastPixel img θ (ax + nb.1) (ay + nb.2) = true →
      cornerScore img (ax + nb.1) (ay + nb.2) < cornerScore img ax ay)

/-- "Some generated tile contains the pixel": coverage by the Cartesian
product of the column and row bound tables. -/
def tilesCover (gx gy : List (ℕ × ℕ)) (px py : ℕ) : Prop :=
  ∃ t1 ∈ gx, ∃ t2 ∈ gy, t1.1 ≤ px ∧ px < t1.2 ∧ t2.1 ≤ py ∧ py < t2.2

instance (gx gy : List (ℕ × ℕ)) (px py : ℕ) : Decidable (tilesCover gx gy px py) := by
  unfold tilesCover; infer_instance

/-- A contiguous run of 9 set bits (cyclically) in a 16-bit mask given as
a bit predicate. -/
def hasRun9 (bit : ℕ → Bool) : Prop :=
  ∃ r < 16, ∀ t ≤ 8, bit ((r + t) % 16) = true

/-! ### Concrete fixtures -/

/-- The invariant of the column-tiling loop under sane parameters. -/
def colInv (p : Params) (s : ColState) : Prop :=
  s.current_width = monoWidth p * (s.image_count + 1) ∧
  s.min_x ≤ p.image_cols ∧
  s.blk_idx ≤ p.image_cols + 1 ∧
  s.current_width ≤ p.image_cols + p.cell_size + p.edge_clip + monoWidth p ∧
  s.blk_idx * p.cell_size ≤ p.image_cols + p.cell_size

/-- Lexicographic termination measure for the column-tiling loop. -/
def colMeasure (p : Params) (s : ColState) : ℕ :=
  ((p.image_cols + p.cell_size + p.edge_clip + monoWidth p) - s.image_count) *
    (p.image_cols + 3) + ((p.image_cols + 2) - s.blk_idx)

/-- The tile `k` of the single-image column tiling, in closed form. -/
def colTile (p : Params) (k : ℕ) : ℕ × ℕ :=
  (p.edge_clip + k * p.cell_size,
   min (p.edge_clip + k * p.cell_size + p.cell_size + p.overlap)
     (p.image_cols - p.edge_clip))

/-- The first `n` column tiles. -/
def colTiles (p : Params) (n : ℕ) : List (ℕ × ℕ) := (List.range n).map (colTile p)

/-- The index of the last generated column tile for a single image. -/
def colB (p : Params) : ℕ := (p.image_cols - 2 * p.edge_clip - 1) / p.cell_size

/-- The configuration of the C2 counterexample: `overlap = 20` equals the
clipped height, so every row window is discarded. -/
def pC2 : Params := ⟨40, 40, 10, 20, 8, 1⟩

/-- One iteration of the first `cornerScore` loop as a named step
function: raise `a0` to `min(a, d[k & 15])` and `min(a, d[(k+9) & 15])`. -/
def pairStepA (d : ℕ → ℤ) (a0 : ℤ) (k : ℕ) : ℤ :=
  max (max a0 (min (arcMinA d k) (d (k % 16)))) (min (arcMinA d k) (d ((k + 9) % 16)))

/-- One rotation step of the 9-point-arc dark maximum. -/
def maxStep (d : ℕ → ℤ) (a : ℤ) (r : ℕ) : ℤ := max a (arcMin9 d r)

/-- One iteration of the second `cornerScore` loop as a named step
function. -/
def pairStepB (d : ℕ → ℤ) (b0 : ℤ) (k : ℕ) : ℤ :=
  min (min b0 (max (arcMaxB d k) (d k))) (max (arcMaxB d k) (d ((k + 9) % 16)))

/-- One rotation step of the 9-point-arc bright minimum. -/
def minStep (d : ℕ → ℤ) (b : ℤ) (r : ℕ) : ℤ := min b (arcMax9 d r)

/-- A concrete 8-bit image: a single dark pixel of intensity 20 at
`(10, 10)` on a background of 100. -/
def imgDot : Img := fun x y => if x = 10 ∧ y = 10 then 20 else 100

/-- A concrete 8-bit image realising the differences `d[1..8] = 10`,
`d[0] = d[9..15] = 0` at the pixel `(0, 0)`: circle points 1…8 have
intensity 10, everything else 20. -/
def imgArc : Img := fun x y =>
  if (x = 3 ∧ y = -1) ∨ (x = 2 ∧ y = -2) ∨ (x = 1 ∧ y = -3) ∨ (x = 0 ∧ y = -3) ∨
     (x = -1 ∧ y = -3) ∨ (x = -2 ∧ y = -2) ∨ (x = -3 ∧ y = -1) ∨ (x = -3 ∧ y = 0)
  then 10 else 20

/-- An all-zero keypoint buffer. -/
def buf0 : ℕ → PartKey := fun _ => ⟨0, 0, 0, 0⟩

/-- The configuration of the C6 counterexample: `edge_clip` larger than
the whole image extent. -/
def pC6 : Params := ⟨10, 10, 11, 0, 1, 1⟩

/-- The C1 counterexample image: intensity 200 at `(10, 10)`, a brighter
210 at the left neighbour `(9, 10)`, background 100.  Both special
pixels are FAST candidates at threshold 20 (each lies off the other's
radius-3 circle) and the left one scores higher. -/
def imgTwo : Img := fun x y =>
  if x = 10 ∧ y = 10 then 200 else if x = 9 ∧ y = 10 then 210 else 100

/-! ## Theorems -/

/-- `usub` on in-range operands is ordinary subtraction, wrapped. -/
theorem usub_small (a b : ℕ) (ha : a < U) (hb : b < U) :
    usub a b = if b ≤ a then a - b else a + U - b := by
  rcases le_or_lt b a with h | h
  · rw [if_pos h]
    unfold usub
    have h1 : a + (U - b % U) = (a - b) + U := by rw [Nat.mod_eq_of_lt hb]; omega
    rw [h1, Nat.add_mod_right, Nat.mod_eq_of_lt (by omega)]
  · rw [if_neg (by omega)]
    unfold usub
    have h1 : a + (U - b % U) = a + U - b := by rw [Nat.mod_eq_of_lt hb]; omega
    rw [h1, Nat.mod_eq_of_lt (by omega)]

/-- `usub` when the subtrahend is known not to exceed the minuend. -/
theorem usub_of_le (a b : ℕ) (ha : a < U) (h : b ≤ a) : usub a b = a - b := by
  rw [usub_small a b ha (lt_of_le_of_lt h ha), if_pos h]

/-- **C3** (confirmed).  Within one detection pass over one tile, the
detect phase is rerun at the `minimum` threshold if and only if the
tile's count at the `initial` threshold — the NMS-survivor count when
NMS is enabled, the raw FAST candidate count when it is disabled — is
exactly zero; and the detect phase never runs more than twice. -/
theorem threshold_escalation_iff (img msk : Img) (maskCheck nmsOn : Bool)
    (ini minT edge : ℕ) (xtabGX xtabGY ytabGY : ℤ × ℤ)
    (minX maxX minY maxY : ℤ) (LW LH : ℕ) (buf : ℕ → PartKey) (start : ℕ) :
    (fastExtTile img msk maskCheck nmsOn ini minT edge xtabGX xtabGY ytabGY
        minX maxX minY maxY LW LH buf start).2.2 =
      (if (if nmsOn then
            (nmsSurvivors img edge xtabGX xtabGY ytabGY
              (tileCandidates img msk maskCheck ini minX maxX minY maxY LW LH)).length
          else
            (tileCandidates img msk maskCheck ini minX maxX minY maxY LW LH).length) = 0
       then [ini, minT] else [ini]) ∧
    (fastExtTile img msk maskCheck nmsOn ini minT edge xtabGX xtabGY ytabGY
        minX maxX minY maxY LW LH buf start).2.2.length ≤ 2 := by
  unfold fastExtTile
  cases nmsOn <;>
    simp only [Bool.false_eq_true, if_false, if_true, List.length_eq_zero] <;>
    split_ifs <;> simp_all

/-- **C6 counterexample**.  With `width = height = 10` and
`edge_clip = 11` the clipped interior is empty (`edge_clip` exceeds half
the image extent), yet the `uint32_t` computation of `max_border` wraps
and `getGlobalRange` does **not** throw: setup succeeds. -/
theorem degenerate_region_counterexample :
    2 * pC6.edge_clip > pC6.image_cols ∧ 2 * pC6.edge_clip > pC6.image_rows ∧
    fastSetup pC6 = Except.ok () := by
  refine ⟨by decide, by decide, ?_⟩
  have h : getGlobalRangeThrows pC6 = false := by decide
  simp [fastSetup, h]

/-- **C6** (corrected).  For `uint32_t`-ranged parameters the setup fails
with the "unsupported configuration" error exactly when, on one of the
two axes, `edge_clip` is at most the image extent but exceeds half of
it; when `edge_clip` exceeds the extent itself the border computation
wraps and no error is raised. -/
theorem degenerate_region_error_iff (p : Params)
    (hc : p.image_cols < U) (hr : p.image_rows < U) (he : 2 * p.edge_clip ≤ U) :
    fastSetup p = Except.error "Unsupported scale factor" ↔
      ((p.edge_clip ≤ p.image_cols ∧ p.image_cols < 2 * p.edge_clip) ∨
       (p.edge_clip ≤ p.image_rows ∧ p.image_rows < 2 * p.edge_clip)) := by
  have he' : p.edge_clip < U := by
    have : (2 : ℕ) ≤ U := by norm_num [U]
    omega
  unfold fastSetup getGlobalRangeThrows
  rw [usub_small _ _ hc he', usub_small _ _ hr he']
  rcases le_or_lt p.edge_clip p.image_cols with h1 | h1 <;>
    rcases le_or_lt p.edge_clip p.image_rows with h2 | h2 <;>
      simp only [if_pos, if_neg, not_le, h1, h2] <;>
      split_ifs with hh <;>
      simp_all <;> omega

/-- One work item of the descriptor launch only writes the `angle` of
keypoint `idx < n` and descriptor bytes `[32*idx, 32*idx + 32)`. -/
theorem descWorkItem_frame (img gimg : Img) (umax : ℕ → ℤ) (pattern : ℕ → ℚ)
    (n : ℕ) (st : DescState) (idx : ℕ) :
    (∀ j, n ≤ j → (descWorkItem img gimg umax pattern n st idx).kps j = st.kps j) ∧
    (∀ j, ((descWorkItem img gimg umax pattern n st idx).kps j).x = (st.kps j).x ∧
      ((descWorkItem img gimg umax pattern n st idx).kps j).y = (st.kps j).y ∧
      ((descWorkItem img gimg umax pattern n st idx).kps j).response =
        (st.kps j).response) ∧
    (∀ j, 32 * n ≤ j →
      (descWorkItem img gimg umax pattern n st idx).descs j = st.descs j) := by
  unfold descWorkItem
  split
  · next hlt =>
    refine ⟨fun j hj => ?_, fun j => ?_, fun j hj => ?_⟩
    · simp only []
      rw [if_neg (by omega)]
    · by_cases hji : j = idx
      · subst hji; simp
      · simp [hji]
    · simp only []
      rw [if_neg (by omega)]
  · exact ⟨fun _ _ => rfl, fun _ => ⟨rfl, rfl, rfl⟩, fun _ _ => rfl⟩

/-- Folding descriptor work items preserves the launch frame conditions. -/
theorem descFold_frame (img gimg : Img) (umax : ℕ → ℤ) (pattern : ℕ → ℚ)
    (n : ℕ) : ∀ (l : List ℕ) (st : DescState),
    (∀ j, n ≤ j →
      (l.foldl (descWorkItem img gimg umax pattern n) st).kps j = st.kps j) ∧
    (∀ j, ((l.foldl (descWorkItem img gimg umax pattern n) st).kps j).x = (st.kps j).x ∧
      ((l.foldl (descWorkItem img gimg umax pattern n) st).kps j).y = (st.kps j).y ∧
      ((l.foldl (descWorkItem img gimg umax pattern n) st).kps j).response =
        (st.kps j).response) ∧
    (∀ j, 32 * n ≤ j →
      (l.foldl (descWorkItem img gimg umax pattern n) st).descs j = st.descs j) := by
  intro l
  induction l with
  | nil => exact fun st => ⟨fun _ _ => rfl, fun _ => ⟨rfl, rfl, rfl⟩, fun _ _ => rfl⟩
  | cons a t ih =>
    intro st
    have hstep := descWorkItem_frame img gimg umax pattern n st a
    have hrest := ih (descWorkItem img gimg umax pattern n st a)
    refine ⟨fun j hj => ?_, fun j => ?_, fun j hj => ?_⟩
    · simp only [List.foldl_cons]
      rw [hrest.1 j hj, hstep.1 j hj]
    · simp only [List.foldl_cons]
      obtain ⟨hx, hy, hr⟩ := hrest.2.1 j
      obtain ⟨hx', hy', hr'⟩ := hstep.2.1 j
      exact ⟨hx.trans hx', hy.trans hy', hr.trans hr'⟩
    · simp only [List.foldl_cons]
      rw [hrest.2.2 j hj, hstep.2.2 j hj]

/-- **C10** (confirmed).  The orientation+descriptor launch runs over a
1-D range padded to a multiple of 16, but padding work items write
nothing: only the `angle` fields of the first `num_keypoints` records
and the first `32 * num_keypoints` descriptor bytes change; keypoint
coordinates and `response` fields are never modified. -/
theorem descriptor_launch_pad_frame (img gimg : Img) (umax : ℕ → ℤ)
    (pattern : ℕ → ℚ) (n : ℕ) (st : DescState) :
    align n 16 % 16 = 0 ∧ n ≤ align n 16 ∧
    (∀ j, n ≤ j →
      (orbDescriptorLaunch img gimg umax pattern n st).kps j = st.kps j) ∧
    (∀ j, ((orbDescriptorLaunch img gimg umax pattern n st).kps j).x = (st.kps j).x ∧
      ((orbDescriptorLaunch img gimg umax pattern n st).kps j).y = (st.kps j).y ∧
      ((orbDescriptorLaunch img gimg umax pattern n st).kps j).response =
        (st.kps j).response) ∧
    (∀ j, 32 * n ≤ j →
      (orbDescriptorLaunch img gimg umax pattern n st).descs j = st.descs j) := by
  refine ⟨?_, ?_, ?_⟩
  · unfold align
    exact Nat.mul_mod_left _ _
  · unfold align
    omega
  · exact descFold_frame img gimg umax pattern n (List.range (align n 16)) st

/-- A slot inside the written range receives its update function applied
to the old record. -/
theorem writeSlots_get (buf : ℕ → PartKey) (start : ℕ) (ws : List (PartKey → PartKey))
    (i : ℕ) (h1 : start ≤ i) (h2 : i - start < ws.length) :
    ∃ w, ws.get? (i - start) = some w ∧ writeSlots buf start ws i = w (buf i) := by
  unfold writeSlots
  rw [if_pos h1]
  cases hw : ws.get? (i - start) with
  | none => exact absurd (List.get?_eq_none.mp hw) (by omega)
  | some w => exact ⟨w, rfl, rfl⟩

/-- Fields of a slot written by the NMS path. -/
theorem nmsWritten_fields (img : Img) (edge : ℕ) (buf : ℕ → PartKey) (start : ℕ)
    (s : List PartKey)
    (hs : ∀ k ∈ s, ∃ ax ay : ℤ, k = nmsRecord edge ax ay (cornerScore img ax ay))
    (i : ℕ) (h1 : start ≤ i) (h2 : i < start + s.length) :
    (writeSlots buf start (s.map (fun k _ => k)) i).angle = -1 ∧
    ∃ ax ay : ℤ,
      (writeSlots buf start (s.map (fun k _ => k)) i).x = ax - (edge : ℤ) ∧
      (writeSlots buf start (s.map (fun k _ => k)) i).y = ay - (edge : ℤ) ∧
      (writeSlots buf start (s.map (fun k _ => k)) i).response =
        ((cornerScore img ax ay : ℤ) : ℚ) := by
  obtain ⟨w, hw, hval⟩ :=
    writeSlots_get buf start (s.map (fun (k : PartKey) (_ : PartKey) => k)) i h1
      (by rw [List.length_map]; omega)
  rw [List.get?_map] at hw
  cases hk : s.get? (i - start) with
  | none => rw [hk] at hw; exact absurd hw (by simp)
  | some kp =>
    rw [hk] at hw
    obtain ⟨ax, ay, hkp⟩ := hs kp (List.get?_mem hk)
    have hwk : w = fun _ => kp := by simpa using hw.symm
    rw [hval, hwk, hkp]
    exact ⟨rfl, ax, ay, rfl, rfl, rfl⟩

/-- Fields of a slot written by the raw (non-NMS) path. -/
theorem rawWritten_fields (img : Img) (edge : ℕ) (buf : ℕ → PartKey) (start : ℕ)
    (cs : List (ℤ × ℤ))
    (i : ℕ) (h1 : start ≤ i) (h2 : i < start + cs.length) :
    (writeSlots buf start (cs.map (fun c old => rawWrite edge old c.1 c.2)) i).angle = -1 ∧
    (writeSlots buf start (cs.map (fun c old => rawWrite edge old c.1 c.2)) i).response =
      (buf i).response ∧
    ∃ ax ay : ℤ,
      (writeSlots buf start (cs.map (fun c old => rawWrite edge old c.1 c.2)) i).x =
        ax - (edge : ℤ) ∧
      (writeSlots buf start (cs.map (fun c old => rawWrite edge old c.1 c.2)) i).y =
        ay - (edge : ℤ) := by
  obtain ⟨w, hw, hval⟩ :=
    writeSlots_get buf start (cs.map (fun c old => rawWrite edge old c.1 c.2)) i h1
      (by rw [List.length_map]; omega)
  rw [List.get?_map] at hw
  cases hk : cs.get? (i - start) with
  | none => rw [hk] at hw; exact absurd hw (by simp)
  | some c =>
    rw [hk] at hw
    have hwk : w = fun old => rawWrite edge old c.1 c.2 := by simpa using hw.symm
    rw [hval, hwk]
    exact ⟨rfl, rfl, c.1, c.2, rfl, rfl⟩

/-- Every NMS survivor record is an `nmsRecord` of some candidate. -/
theorem nmsSurvivors_shape (img : Img) (edge : ℕ) (xtabGX xtabGY ytabGY : ℤ × ℤ)
    (cands : List (ℤ × ℤ)) (k : PartKey)
    (hk : k ∈ nmsSurvivors img edge xtabGX xtabGY ytabGY cands) :
    ∃ ax ay : ℤ, k = nmsRecord edge ax ay (cornerScore img ax ay) := by
  unfold nmsSurvivors at hk
  obtain ⟨c, _, hc⟩ := List.mem_filterMap.mp hk
  by_cases hacc : nmsAccept img xtabGX xtabGY ytabGY c.1 c.2 = true
  · rw [if_pos hacc] at hc
    exact ⟨c.1, c.2, (Option.some_inj.mp hc).symm⟩
  · rw [if_neg hacc] at hc; exact absurd hc (by simp)

/-- **C5** (confirmed).  Every keypoint record the detection kernel
writes has `angle = -1` and coordinates equal to the candidate's image
coordinates shifted by `-edge_clip` on both axes; with NMS enabled its
`response` equals the candidate's corner score, and with NMS disabled
the `response` field of the slot is left untouched. -/
theorem keypoint_write_contract (img msk : Img) (maskCheck nmsOn : Bool)
    (ini minT edge : ℕ) (xtabGX xtabGY ytabGY : ℤ × ℤ)
    (minX maxX minY maxY : ℤ) (LW LH : ℕ) (buf : ℕ → PartKey) (start i : ℕ)
    (h1 : start ≤ i)
    (h2 : i < (fastExtTile img msk maskCheck nmsOn ini minT edge xtabGX xtabGY ytabGY
      minX maxX minY maxY LW LH buf start).2.1) :
    ((fastExtTile img msk maskCheck nmsOn ini minT edge xtabGX xtabGY ytabGY
        minX maxX minY maxY LW LH buf start).1 i).angle = -1 ∧
    (nmsOn = false →
      ((fastExtTile img msk maskCheck nmsOn ini minT edge xtabGX xtabGY ytabGY
        minX maxX minY maxY LW LH buf start).1 i).response = (buf i).response) ∧
    ∃ ax ay : ℤ,
      ((fastExtTile img msk maskCheck nmsOn ini minT edge xtabGX xtabGY ytabGY
        minX maxX minY maxY LW LH buf start).1 i).x = ax - (edge : ℤ) ∧
      ((fastExtTile img msk maskCheck nmsOn ini minT edge xtabGX xtabGY ytabGY
        minX maxX minY maxY LW LH buf start).1 i).y = ay - (edge : ℤ) ∧
      (nmsOn = true →
        ((fastExtTile img msk maskCheck nmsOn ini minT edge xtabGX xtabGY ytabGY
          minX maxX minY maxY LW LH buf start).1 i).response =
          ((cornerScore img ax ay : ℤ) : ℚ)) := by
  cases nmsOn
  · -- non-NMS path: raw writes
    unfold fastExtTile at h2 ⊢
    simp only [Bool.false_eq_true, if_false] at h2 ⊢
    obtain ⟨ha, hresp, ax, ay, hx, hy⟩ :=
      rawWritten_fields img edge buf start _ i h1 (by simpa using h2)
    exact ⟨ha, fun _ => hresp, ax, ay, hx, hy, by simp⟩
  · -- NMS path
    unfold fastExtTile at h2 ⊢
    simp only [if_true] at h2 ⊢
    by_cases hni : nmsSurvivors img edge xtabGX xtabGY ytabGY
        (tileCandidates img msk maskCheck ini minX maxX minY maxY LW LH) = []
    · rw [if_pos hni] at h2 ⊢
      obtain ⟨ha, ax, ay, hx, hy, hresp⟩ :=
        nmsWritten_fields img edge buf start _
          (fun k hk => nmsSurvivors_shape img edge xtabGX xtabGY ytabGY _ k hk)
          i h1 (by simpa using h2)
      exact ⟨ha, by simp, ax, ay, hx, hy, fun _ => hresp⟩
    · rw [if_neg hni] at h2 ⊢
      obtain ⟨ha, ax, ay, hx, hy, hresp⟩ :=
        nmsWritten_fields img edge buf start _
          (fun k hk => nmsSurvivors_shape img edge xtabGX xtabGY ytabGY _ k hk)
          i h1 (by simpa using h2)
      exact ⟨ha, by simp, ax, ay, hx, hy, fun _ => hresp⟩

set_option maxRecDepth 1000000 in
/-- Witness for `keypoint_write_contract`: a concrete NMS tile run over
`imgDot` writes exactly one keypoint, and the contract holds for it. -/
theorem keypoint_write_contract_witness :
    (0 : ℕ) ≤ 0 ∧
    0 < (fastExtTile imgDot imgDot false true 20 7 4 (4, 30) (4, 30) (4, 30)
      4 30 4 30 8 1 buf0 0).2.1 ∧
    (((fastExtTile imgDot imgDot false true 20 7 4 (4, 30) (4, 30) (4, 30)
        4 30 4 30 8 1 buf0 0).1 0).angle = -1 ∧
    (true = false →
      ((fastExtTile imgDot imgDot false true 20 7 4 (4, 30) (4, 30) (4, 30)
        4 30 4 30 8 1 buf0 0).1 0).response = (buf0 0).response) ∧
    ∃ ax ay : ℤ,
      ((fastExtTile imgDot imgDot false true 20 7 4 (4, 30) (4, 30) (4, 30)
        4 30 4 30 8 1 buf0 0).1 0).x = ax - ((4 : ℕ) : ℤ) ∧
      ((fastExtTile imgDot imgDot false true 20 7 4 (4, 30) (4, 30) (4, 30)
        4 30 4 30 8 1 buf0 0).1 0).y = ay - ((4 : ℕ) : ℤ) ∧
      (true = true →
        ((fastExtTile imgDot imgDot false true 20 7 4 (4, 30) (4, 30) (4, 30)
          4 30 4 30 8 1 buf0 0).1 0).response =
          ((cornerScore imgDot ax ay : ℤ) : ℚ))) := by
  have h2 : 0 < (fastExtTile imgDot imgDot false true 20 7 4 (4, 30) (4, 30) (4, 30)
      4 30 4 30 8 1 buf0 0).2.1 := by decide
  exact ⟨le_refl 0, h2,
    keypoint_write_contract imgDot imgDot false true 20 7 4 (4, 30) (4, 30) (4, 30)
      4 30 4 30 8 1 buf0 0 0 (le_refl 0) h2⟩

/-- Witness for `degenerate_region_error_iff`: `edge_clip = 6` on a
10×10 image is degenerate and the setup indeed errors. -/
theorem degenerate_region_error_iff_witness :
    (10 : ℕ) < U ∧
    fastSetup ⟨10, 10, 6, 0, 1, 1⟩ = Except.error "Unsupported scale factor" := by
  refine ⟨by norm_num [U], ?_⟩
  exact (degenerate_region_error_iff ⟨10, 10, 6, 0, 1, 1⟩ (by norm_num [U])
    (by norm_num [U]) (by norm_num [U])).mpr (Or.inl ⟨by norm_num, by norm_num⟩)

/-! ### C4: the corner-score formula -/

/-- Extending the code's 8-point arc minimum by the arc's left endpoint
gives the 9-point arc minimum starting there. -/
theorem arcMinA_left (d : ℕ → ℤ) (k : ℕ) :
    min (arcMinA d k) (d (k % 16)) = arcMin9 d k := by
  simp only [arcMinA, arcMin9, List.foldl]
  ac_rfl

/-- Extending the code's 8-point arc minimum by the arc's right endpoint
gives the 9-point arc minimum starting one later. -/
theorem arcMinA_right (d : ℕ → ℤ) (k : ℕ) :
    min (arcMinA d k) (d ((k + 9) % 16)) = arcMin9 d (k + 1) := by
  simp only [arcMinA, arcMin9, List.foldl]

/-- Max analogue of `arcMinA_left` (the source indexes `d[k]` without the
`& 15`, so `k` must be in range). -/
theorem arcMaxB_left (d : ℕ → ℤ) (k : ℕ) (h : k % 16 = k) :
    max (arcMaxB d k) (d k) = arcMax9 d k := by
  simp only [arcMaxB, arcMax9, List.foldl, h]
  ac_rfl

/-- Max analogue of `arcMinA_right`. -/
theorem arcMaxB_right (d : ℕ → ℤ) (k : ℕ) :
    max (arcMaxB d k) (d ((k + 9) % 16)) = arcMax9 d (k + 1) := by
  simp only [arcMaxB, arcMax9, List.foldl]

/-- One even-`k` iteration of the first `cornerScore` loop performs the
two 9-point-arc rotation steps `k` and `k + 1`. -/
theorem pairStepA_eq (d : ℕ → ℤ) (a0 : ℤ) (k : ℕ) :
    pairStepA d a0 k = maxStep d (maxStep d a0 k) (k + 1) := by
  unfold pairStepA maxStep
  rw [arcMinA_left, arcMinA_right]

/-- One even-`k` iteration of the second `cornerScore` loop performs the
two 9-point-arc rotation steps `k` and `k + 1`. -/
theorem pairStepB_eq (d : ℕ → ℤ) (b0 : ℤ) (k : ℕ) (h : k % 16 = k) :
    pairStepB d b0 k = minStep d (minStep d b0 k) (k + 1) := by
  unfold pairStepB minStep
  rw [arcMaxB_left d k h, arcMaxB_right]

/-- Folding the paired iterations over `ks` equals folding the rotation
steps over the interleaved list. -/
theorem foldPairA (d : ℕ → ℤ) : ∀ (ks : List ℕ) (a0 : ℤ),
    ks.foldl (pairStepA d) a0 =
    (ks.flatMap (fun k => [k, k + 1])).foldl (maxStep d) a0 := by
  intro ks
  induction ks with
  | nil => intro a0; rfl
  | cons k t ih =>
    intro a0
    rw [List.foldl_cons, List.flatMap_cons, List.foldl_append, List.foldl_cons,
      List.foldl_cons, List.foldl_nil, pairStepA_eq]
    exact ih _

/-- Min analogue of `foldPairA`. -/
theorem foldPairB (d : ℕ → ℤ) : ∀ (ks : List ℕ), (∀ k ∈ ks, k % 16 = k) → ∀ (b0 : ℤ),
    ks.foldl (pairStepB d) b0 =
    (ks.flatMap (fun k => [k, k + 1])).foldl (minStep d) b0 := by
  intro ks
  induction ks with
  | nil => intro _ b0; rfl
  | cons k t ih =>
    intro hmem b0
    rw [List.foldl_cons, List.flatMap_cons, List.foldl_append, List.foldl_cons,
      List.foldl_cons, List.foldl_nil, pairStepB_eq d b0 k (hmem k (by simp))]
    exact ih (fun j hj => hmem j (by simp [hj])) _

/-- The first `cornerScore` loop computes the max over all 16 rotations
of the 9-point arc minimum, seeded with 0. -/
theorem a0Code_eq (d : ℕ → ℤ) :
    a0Code d = (List.range 16).foldl (maxStep d) 0 := by
  have h1 : a0Code d = [0, 2, 4, 6, 8, 10, 12, 14].foldl (pairStepA d) 0 := rfl
  rw [h1, foldPairA]
  congr 1

/-- The second `cornerScore` loop computes the min over all 16 rotations
of the 9-point arc maximum, seeded with `init = -a0`. -/
theorem b0Code_eq (d : ℕ → ℤ) (init : ℤ) :
    b0Code d init = (List.range 16).foldl (minStep d) init := by
  have h1 : b0Code d init = [0, 2, 4, 6, 8, 10, 12, 14].foldl (pairStepB d) init := rfl
  rw [h1, foldPairB d _ (by decide)]
  congr 1

set_option maxRecDepth 100000 in
/-- **C4 counterexample**.  At the pixel `(0, 0)` of `imgArc` (differences
`d[1..8] = 10`, all other `d = 0`) the reference formula of the claim —
8 rotations of an **8-point** arc — yields 9, while `cornerScore`
yields −1: the claim's formula does not match the code. -/
theorem cornerScore_spec8_counterexample :
    cornerScore imgArc 0 0 ≠ cornerScoreSpec8 imgArc 0 0 := by decide

/-- **C4** (corrected).  `cornerScore` equals the reference formula with
**9-point** arcs over all 16 rotations, the dark maximum seeded with 0,
the bright case seeded with the negated dark result, and final score
`-(min-over-rotations-of-max) - 1`. -/
theorem cornerScore_eq_spec9 (img : Img) (x y : ℤ) :
    cornerScore img x y = cornerScoreSpec9 img x y := by
  simp only [cornerScore, cornerScoreSpec9]
  rw [a0Code_eq, b0Code_eq]
  rfl

/-- Bounds for the odd polynomial of `fastAtan2` on `[0, 1)`. -/
theorem atanPoly_bounds (c : ℚ) (h0 : 0 ≤ c) (h1 : c < 1) :
    0 ≤ atanPoly c ∧ atanPoly c < 58 ∧ (0 < c → 0 < atanPoly c) := by
  have hp1 : (57 : ℚ) < atan2P1 ∧ atan2P1 < 58 := by
    constructor <;> norm_num [atan2P1, rad2deg]
  have hp3 : (-19 : ℚ) < atan2P3 ∧ atan2P3 < -18 := by
    constructor <;> norm_num [atan2P3, rad2deg]
  have hp5 : (8 : ℚ) < atan2P5 ∧ atan2P5 < 9 := by
    constructor <;> norm_num [atan2P5, rad2deg]
  have hp7 : (-3 : ℚ) < atan2P7 ∧ atan2P7 < 0 := by
    constructor <;> norm_num [atan2P7, rad2deg]
  have ht0 : 0 ≤ c * c := mul_nonneg h0 h0
  have ht1 : c * c < 1 := by nlinarith
  have hi1a : 5 < atan2P7 * (c * c) + atan2P5 := by nlinarith [hp7.1, hp7.2, hp5.1]
  have hi1b : atan2P7 * (c * c) + atan2P5 < 9 := by nlinarith [hp7.2, hp5.2]
  have hi2a : (-19 : ℚ) < (atan2P7 * (c * c) + atan2P5) * (c * c) + atan2P3 := by
    nlinarith [hp3.1]
  have hi2b : (atan2P7 * (c * c) + atan2P5) * (c * c) + atan2P3 < -9 := by
    nlinarith [hp3.2]
  have hi3a : (38 : ℚ) <
      ((atan2P7 * (c * c) + atan2P5) * (c * c) + atan2P3) * (c * c) + atan2P1 := by
    nlinarith [hp1.1]
  have hi3b : ((atan2P7 * (c * c) + atan2P5) * (c * c) + atan2P3) * (c * c) + atan2P1
      < 58 := by nlinarith [hp1.2]
  unfold atanPoly
  refine ⟨by nlinarith, by nlinarith, fun hc => by nlinarith⟩

/-- In the exact-rational idealization of `fastAtan2`:
`fastAtan2(0, x) = 0` for `x > 0`; `fastAtan2(y, 0)` is 90 for `y > 0`
and 270 for `y < 0`; and every output lies in `[0, 360)`.  The
half-open bound is a property of the idealization only: under the real
`binary32` arithmetic it fails (`fastAtan2_float_360`). -/
theorem fastAtan2_props :
    (∀ x : ℚ, 0 < x → fastAtan2 0 x = 0) ∧
    (∀ y : ℚ, 0 < y → fastAtan2 y 0 = 90) ∧
    (∀ y : ℚ, y < 0 → fastAtan2 y 0 = 270) ∧
    (∀ y x : ℚ, 0 ≤ fastAtan2 y x ∧ fastAtan2 y x < 360) := by
  have heps : (0 : ℚ) < epsF := by norm_num [epsF]
  have h0 : atanPoly 0 = 0 := by simp [atanPoly]
  refine ⟨?_, ?_, ?_, ?_⟩
  · intro x hx
    simp [fastAtan2, abs_of_pos hx, abs_zero, hx.le, h0, not_lt.mpr hx.le]
  · intro y hy
    have h1 : ¬(y ≤ 0) := not_le.mpr hy
    simp [fastAtan2, abs_zero, abs_of_pos hy, h0, h1, not_lt.mpr hy.le]
  · intro y hy
    have h1 : ¬(-y ≤ 0) := by linarith
    simp [fastAtan2, abs_zero, abs_of_neg hy, h0, h1, hy]
    norm_num
  · intro y x
    have hax : 0 ≤ |x| := abs_nonneg x
    have hay : 0 ≤ |y| := abs_nonneg y
    simp only [fastAtan2]
    by_cases hc : |y| ≤ |x|
    · rw [if_pos hc]
      have hc0 : 0 ≤ |y| / (|x| + epsF) := div_nonneg hay (by linarith)
      have hc1 : |y| / (|x| + epsF) < 1 := by
        rw [div_lt_one (by linarith)]; linarith
      obtain ⟨hb0, hb1, hb2⟩ := atanPoly_bounds _ hc0 hc1
      by_cases hxneg : x < 0
      · rw [if_pos hxneg]
        by_cases hyneg : y < 0
        · rw [if_pos hyneg]
          constructor <;> linarith
        · rw [if_neg hyneg]
          constructor <;> linarith
      · rw [if_neg hxneg]
        by_cases hyneg : y < 0
        · rw [if_pos hyneg]
          have hypos : 0 < |y| := abs_pos.mpr (ne_of_lt hyneg)
          have hcpos : 0 < |y| / (|x| + epsF) := div_pos hypos (by linarith)
          have := hb2 hcpos
          constructor <;> linarith
        · rw [if_neg hyneg]
          constructor <;> linarith
    · rw [if_neg hc]
      push_neg at hc
      have hc0 : 0 ≤ |x| / (|y| + epsF) := div_nonneg hax (by linarith)
      have hc1 : |x| / (|y| + epsF) < 1 := by
        rw [div_lt_one (by linarith)]; linarith
      obtain ⟨hb0, hb1, hb2⟩ := atanPoly_bounds _ hc0 hc1
      by_cases hxneg : x < 0
      · rw [if_pos hxneg]
        by_cases hyneg : y < 0
        · rw [if_pos hyneg]
          constructor <;> linarith
        · rw [if_neg hyneg]
          constructor <;> linarith
      · rw [if_neg hxneg]
        by_cases hyneg : y < 0
        · rw [if_pos hyneg]
          constructor <;> linarith
        · rw [if_neg hyneg]
          constructor <;> linarith

/-- Witness for `fastAtan2_props` at concrete inputs. -/
theorem fastAtan2_props_witness :
    (0 : ℚ) < 1 ∧ (-1 : ℚ) < 0 ∧
    fastAtan2 0 1 = 0 ∧ fastAtan2 1 0 = 90 ∧ fastAtan2 (-1) 0 = 270 ∧
    0 ≤ fastAtan2 (-3) (-4) ∧ fastAtan2 (-3) (-4) < 360 := by
  refine ⟨by norm_num, by norm_num, fastAtan2_props.1 1 (by norm_num),
    fastAtan2_props.2.1 1 (by norm_num), fastAtan2_props.2.2.1 (-1) (by norm_num),
    (fastAtan2_props.2.2.2 (-3) (-4)).1, (fastAtan2_props.2.2.2 (-3) (-4)).2⟩

set_option maxRecDepth 1000000 in
/-- **C7 (code bug)**.  Under the exact `binary32` semantics of the
source (`fastAtan2F`), the input `y = -1`, `x = 4000000` — both exact
`float` values — returns exactly `360`: the polynomial term is about
`1.43e-5`, and `360.f - a` rounds back up to `360.0f` because the gap
is below half an ulp of 360 (`2^(-16)`).  The claimed half-open output
range `[0, 360)` is therefore violated by the program. -/
theorem fastAtan2_float_360 :
    fastAtan2F (-1) 4000000 = 360 ∧ ¬ fastAtan2F (-1) 4000000 < 360 := by
  have h : fastAtan2F (-1) 4000000 = 360 := by with_unfolding_all rfl
  exact ⟨h, by rw [h]; exact lt_irrefl _⟩

/-! ### C8: descriptor bit encoding -/

/-- `testBit` of a boolean shifted into position `b`. -/
theorem testBit_toNat_shift (bo : Bool) (b t : ℕ) :
    ((bo.toNat <<< b).testBit t) = (bo && decide (t = b)) := by
  cases bo with
  | false => simp
  | true =>
    simp only [Bool.toNat_true, Bool.true_and]
    rw [Nat.shiftLeft_eq, one_mul, Nat.testBit_two_pow]
    simp [eq_comm]

theorem foldOr_testBit (f : ℕ → Bool) : ∀ (l : List ℕ) (acc : ℕ) (t : ℕ),
    (l.foldl (fun val b => val ||| (f b).toNat <<< b) acc).testBit t =
    (acc.testBit t || l.any (fun b => decide (b = t) && f b)) := by
  intro l
  induction l with
  | nil => intro acc t; simp
  | cons b rest ih =>
    intro acc t
    rw [List.foldl_cons, ih]
    simp only [Nat.testBit_or, testBit_toNat_shift, List.any_cons]
    have hcomm : (decide (t = b)) = (decide (b = t)) := decide_eq_decide.mpr eq_comm
    rw [hcomm]
    cases hft : f b <;> cases hbt : decide (b = t) <;>
      simp_all [Bool.or_assoc, Bool.or_comm, Bool.or_left_comm]

theorem descByte_testBit (gimg : Img) (cx cy : ℤ) (pattern : ℕ → ℚ)
    (cosa sina : ℚ) (base : ℕ) (t : ℕ) (ht : t < 8) :
    (descByte gimg cx cy pattern cosa sina base).testBit t =
      decide (getValueQ gimg cx cy pattern cosa sina (base + 2 * t) <
        getValueQ gimg cx cy pattern cosa sina (base + 2 * t + 1)) := by
  have h := foldOr_testBit
    (fun b => decide (getValueQ gimg cx cy pattern cosa sina (base + 2 * b) <
      getValueQ gimg cx cy pattern cosa sina (base + 2 * b + 1)))
    (List.range 8) 0 t
  rw [descByte, h]
  rw [Nat.zero_testBit, Bool.false_or]
  cases hcmp : decide (getValueQ gimg cx cy pattern cosa sina (base + 2 * t) <
      getValueQ gimg cx cy pattern cosa sina (base + 2 * t + 1)) with
  | true =>
    rw [List.any_eq_true]
    exact ⟨t, List.mem_range.mpr ht, by simp [hcmp]⟩
  | false =>
    rw [List.any_eq_false]
    intro b hb
    by_cases hbt : b = t
    · subst hbt; simp [hcmp]
    · simp [hbt]

/-- **C8** (confirmed).  Descriptor byte `i` has bit `b` set iff the
intensity at the rotated-and-rounded first offset of pattern pair
`8*i + b` is strictly below the intensity at the second; exactly 32
bytes are produced, in this byte and bit order. -/
theorem descriptor_bit_encoding (gimg : Img) (cx cy : ℤ) (pattern : ℕ → ℚ)
    (cosa sina : ℚ) :
    (descBytes gimg cx cy pattern cosa sina).length = 32 ∧
    ∀ i, i < 32 → ∀ b, b < 8 →
      ((descBytes gimg cx cy pattern cosa sina).getD i 0).testBit b =
        decide (getValueQ gimg cx cy pattern cosa sina (2 * (8 * i + b)) <
          getValueQ gimg cx cy pattern cosa sina (2 * (8 * i + b) + 1)) := by
  constructor
  · simp [descBytes]
  · intro i hi b hb
    have hget : (descBytes gimg cx cy pattern cosa sina).getD i 0 =
        descByte gimg cx cy pattern cosa sina (16 * i) := by
      unfold descBytes
      rw [List.getD_eq_getElem?_getD, List.getElem?_map, List.getElem?_range hi]
      rfl
    rw [hget, descByte_testBit gimg cx cy pattern cosa sina (16 * i) b hb]
    have harith : 16 * i + 2 * b = 2 * (8 * i + b) := by ring
    rw [harith]

/-- Witness for `descriptor_bit_encoding` at byte 0, bit 0 of a concrete
configuration. -/
theorem descriptor_bit_encoding_witness :
    (0 : ℕ) < 32 ∧ (0 : ℕ) < 8 ∧
    ((descBytes imgDot 0 0 (fun _ => 0) 1 0).getD 0 0).testBit 0 =
      decide (getValueQ imgDot 0 0 (fun _ => 0) 1 0 (2 * (8 * 0 + 0)) <
        getValueQ imgDot 0 0 (fun _ => 0) 1 0 (2 * (8 * 0 + 0) + 1)) := by
  exact ⟨by norm_num, by norm_num,
    (descriptor_bit_encoding imgDot 0 0 (fun _ => 0) 1 0).2 0 (by norm_num) 0 (by norm_num)⟩


/-! ### C9: termination of the column-tiling loop -/

/-- Each loop iteration either breaks, or preserves the invariant and
decreases the measure. -/
theorem colStep_progress (p : Params) (s : ColState)
    (hc : 1 ≤ p.cell_size) (hm : 1 ≤ monoWidth p)
    (he : p.edge_clip ≤ p.image_cols)
    (hsm : 4 * (p.image_cols + p.cell_size + p.edge_clip) < U)
    (hInv : colInv p s) :
    (∃ out, colStep p s = Sum.inr out) ∨
    (∃ s', colStep p s = Sum.inl s' ∧ colInv p s' ∧
      colMeasure p s' < colMeasure p s) := by
  obtain ⟨hcw, hmx, hblk, hcwb, hXb⟩ := hInv
  have hMW : monoWidth p ≤ p.image_cols := Nat.div_le_self _ _
  have hWU : p.image_cols < U := by omega
  have hEU : p.edge_clip < U := by omega
  have hcwU : s.current_width < U := by omega
  have huW : usub p.image_cols p.edge_clip = p.image_cols - p.edge_clip :=
    usub_of_le _ _ hWU he
  have hmc : (s.min_x + p.cell_size) % U = s.min_x + p.cell_size :=
    Nat.mod_eq_of_lt (by omega)
  unfold colStep
  by_cases hcond : (s.min_x + p.cell_size) % U < usub s.current_width p.edge_clip
  · rw [if_pos hcond]
    have hXU : s.blk_idx * p.cell_size + monoWidth p * s.image_count + p.edge_clip < U := by
      have h1 : monoWidth p * s.image_count ≤ monoWidth p * (s.image_count + 1) :=
        Nat.mul_le_mul_left _ (by omega)
      omega
    have hXm : (s.blk_idx * p.cell_size + monoWidth p * s.image_count + p.edge_clip) % U =
        s.blk_idx * p.cell_size + monoWidth p * s.image_count + p.edge_clip :=
      Nat.mod_eq_of_lt hXU
    by_cases hbrk : usub p.image_cols p.edge_clip <
        s.blk_idx * p.cell_size + monoWidth p * s.image_count + p.edge_clip
    · left
      exact ⟨_, by rw [if_pos (by rw [hXm]; exact hbrk)]⟩
    · right
      have hx : s.blk_idx * p.cell_size + monoWidth p * s.image_count + p.edge_clip ≤
          p.image_cols - p.edge_clip := by
        rw [huW] at hbrk; omega
      have hbb : s.blk_idx ≤ p.image_cols := by
        calc s.blk_idx = s.blk_idx * 1 := (Nat.mul_one _).symm
          _ ≤ s.blk_idx * p.cell_size := Nat.mul_le_mul_left _ hc
          _ ≤ p.image_cols := by omega
      have hsucc : (s.blk_idx + 1) * p.cell_size = s.blk_idx * p.cell_size + p.cell_size :=
        Nat.succ_mul _ _
      refine ⟨⟨s.blk_idx + 1, s.image_count,
        s.blk_idx * p.cell_size + monoWidth p * s.image_count + p.edge_clip,
        s.current_width, _⟩, by rw [if_neg (by rw [hXm]; exact hbrk)],
        ⟨hcw,
         show s.blk_idx * p.cell_size + monoWidth p * s.image_count + p.edge_clip ≤
           p.image_cols by omega,
         show s.blk_idx + 1 ≤ p.image_cols + 1 by omega,
         hcwb,
         show (s.blk_idx + 1) * p.cell_size ≤ p.image_cols + p.cell_size by omega⟩, ?_⟩
      show ((p.image_cols + p.cell_size + p.edge_clip + monoWidth p) - s.image_count) *
          (p.image_cols + 3) + ((p.image_cols + 2) - (s.blk_idx + 1)) <
        ((p.image_cols + p.cell_size + p.edge_clip + monoWidth p) - s.image_count) *
          (p.image_cols + 3) + ((p.image_cols + 2) - s.blk_idx)
      have hgen : ∀ P : ℕ, P + ((p.image_cols + 2) - (s.blk_idx + 1)) <
          P + ((p.image_cols + 2) - s.blk_idx) := by
        intro P; omega
      exact hgen _
  · rw [if_neg hcond]
    rw [hmc] at hcond
    right
    have hEcw : p.edge_clip ≤ s.current_width := by
      by_contra hlt
      push_neg at hlt
      rw [usub_small _ _ hcwU hEU, if_neg (by omega)] at hcond
      omega
    have hcwle : s.current_width ≤ s.min_x + p.cell_size + p.edge_clip := by
      rw [usub_of_le _ _ hcwU hEcw] at hcond
      omega
    have hcw' : s.current_width + monoWidth p = monoWidth p * (s.image_count + 1 + 1) := by
      rw [hcw]; ring
    have hcwb' : s.current_width + monoWidth p ≤
        p.image_cols + p.cell_size + p.edge_clip + monoWidth p := by omega
    have hic : s.image_count + 1 ≤ p.image_cols + p.cell_size + p.edge_clip := by
      have h2 : monoWidth p * (s.image_count + 1) ≤
          p.image_cols + p.cell_size + p.edge_clip := by omega
      calc s.image_count + 1 ≤ monoWidth p * (s.image_count + 1) :=
            Nat.le_mul_of_pos_left _ (by omega)
        _ ≤ p.image_cols + p.cell_size + p.edge_clip := h2
    refine ⟨⟨0, s.image_count + 1, s.min_x, s.current_width + monoWidth p, s.acc⟩,
      rfl, ⟨hcw', hmx, show 0 ≤ p.image_cols + 1 by omega, hcwb',
        show 0 * p.cell_size ≤ p.image_cols + p.cell_size by omega⟩, ?_⟩
    show ((p.image_cols + p.cell_size + p.edge_clip + monoWidth p) - (s.image_count + 1)) *
        (p.image_cols + 3) + ((p.image_cols + 2) - 0) <
      ((p.image_cols + p.cell_size + p.edge_clip + monoWidth p) - s.image_count) *
        (p.image_cols + 3) + ((p.image_cols + 2) - s.blk_idx)
    have h1 : (p.image_cols + p.cell_size + p.edge_clip + monoWidth p) - s.image_count =
        ((p.image_cols + p.cell_size + p.edge_clip + monoWidth p) - (s.image_count + 1)) + 1 := by
      omega
    rw [h1, add_mul, one_mul]
    have hgen : ∀ P : ℕ, P + ((p.image_cols + 2) - 0) <
        P + (p.image_cols + 3) + ((p.image_cols + 2) - s.blk_idx) := by
      intro P; omega
    exact hgen _

theorem colRun_terminates_aux (p : Params)
    (hc : 1 ≤ p.cell_size) (hm : 1 ≤ monoWidth p)
    (he : p.edge_clip ≤ p.image_cols)
    (hsm : 4 * (p.image_cols + p.cell_size + p.edge_clip) < U) :
    ∀ n s, colInv p s → colMeasure p s ≤ n →
    ∃ fuel out, colRun p fuel s = some out := by
  intro n
  induction n with
  | zero =>
    intro s hInv hm0
    rcases colStep_progress p s hc hm he hsm hInv with ⟨out, hstep⟩ | ⟨s', _, _, hlt⟩
    · exact ⟨1, out, by rw [colRun, hstep]⟩
    · omega
  | succ n ih =>
    intro s hInv hm0
    rcases colStep_progress p s hc hm he hsm hInv with ⟨out, hstep⟩ |
      ⟨s', hstep, hInv', hlt⟩
    · exact ⟨1, out, by rw [colRun, hstep]⟩
    · obtain ⟨f, out, hf⟩ := ih s' hInv' (by omega)
      refine ⟨f + 1, out, ?_⟩
      rw [colRun, hstep]
      exact hf

theorem colRun_cell0_none : ∀ (fuel blk : ℕ) (acc : List (ℕ × ℕ)),
    colRun ⟨100, 100, 19, 6, 0, 1⟩ fuel ⟨blk, 0, 19, 100, acc⟩ = none := by
  have hu : usub 100 19 = 81 := by decide
  intro fuel
  induction fuel with
  | zero => intro blk acc; rfl
  | succ n ih =>
    intro blk acc
    have hstep : colStep ⟨100, 100, 19, 6, 0, 1⟩ ⟨blk, 0, 19, 100, acc⟩ =
        Sum.inl ⟨blk + 1, 0, 19, 100, acc ++ [(19, 25)]⟩ := by
      unfold colStep monoWidth
      simp [hu, U]
    have h1 : colRun ⟨100, 100, 19, 6, 0, 1⟩ (n + 1) ⟨blk, 0, 19, 100, acc⟩ =
        colRun ⟨100, 100, 19, 6, 0, 1⟩ n ⟨blk + 1, 0, 19, 100, acc ++ [(19, 25)]⟩ := by
      rw [colRun, hstep]
    rw [h1]
    exact ih (blk + 1) (acc ++ [(19, 25)])

theorem groupX_cell0_none : ∀ fuel, colRun ⟨100, 100, 19, 6, 0, 1⟩ fuel
    (colInit ⟨100, 100, 19, 6, 0, 1⟩) = none := by
  have hu : usub 100 19 = 81 := by decide
  intro fuel
  cases fuel with
  | zero => rfl
  | succ n =>
    have hstep : colStep ⟨100, 100, 19, 6, 0, 1⟩ (colInit ⟨100, 100, 19, 6, 0, 1⟩) =
        Sum.inl ⟨1, 0, 19, 100, [(19, 25)]⟩ := by
      unfold colStep colInit monoWidth
      simp [hu, U]
    have h1 : colRun ⟨100, 100, 19, 6, 0, 1⟩ (n + 1) (colInit ⟨100, 100, 19, 6, 0, 1⟩) =
        colRun ⟨100, 100, 19, 6, 0, 1⟩ n ⟨1, 0, 19, 100, [(19, 25)]⟩ := by
      rw [colRun, hstep]
    rw [h1]
    exact colRun_cell0_none n 1 [(19, 25)]

/-- **C9 (amended, proved)**.  The column-tiling `while (1)` loop
terminates for configurations with `cell_size ≥ 1` and `mono_width ≥ 1`
that also keep `edge_clip` within the image width and the magnitudes
`uint32`-representable, and with `cell_size = 0` it never terminates
(concretely at width 100, `edge_clip` 19, `overlap` 6).  The extra
preconditions are forced: when `edge_clip` exceeds the width the break
comparison is against a wrapped value near `2^32` and the loop never
terminates either (`column_loop_nontermination`). -/
theorem column_loop_termination :
    (∀ p : Params, 1 ≤ p.cell_size → 1 ≤ monoWidth p →
      p.edge_clip ≤ p.image_cols →
      4 * (p.image_cols + p.cell_size + p.edge_clip) < U →
      ∃ fuel out, groupX p fuel = some out) ∧
    (∀ fuel, groupX ⟨100, 100, 19, 6, 0, 1⟩ fuel = none) := by
  constructor
  · intro p hc hm he hsm
    have hInv : colInv p (colInit p) := by
      refine ⟨show monoWidth p = monoWidth p * (0 + 1) by ring, Nat.zero_le _,
        Nat.zero_le _, ?_, ?_⟩
      · show monoWidth p ≤ p.image_cols + p.cell_size + p.edge_clip + monoWidth p
        omega
      · show 0 * p.cell_size ≤ p.image_cols + p.cell_size
        omega
    exact colRun_terminates_aux p hc hm he hsm (colMeasure p (colInit p))
      (colInit p) hInv le_rfl
  · exact groupX_cell0_none

/-- Witness for `column_loop_termination` at the spec's example
configuration. -/
theorem column_loop_termination_witness :
    1 ≤ (32 : ℕ) ∧ ∃ fuel out, groupX ⟨848, 480, 19, 6, 32, 1⟩ fuel = some out := by
  refine ⟨by norm_num, ?_⟩
  exact column_loop_termination.1 ⟨848, 480, 19, 6, 32, 1⟩ (by norm_num)
    (by norm_num [monoWidth]) (by norm_num) (by norm_num [U])

/-! ### C2: tiling coverage -/

theorem ite_lt_eq_min (a b : ℕ) : (if b < a then b else a) = min a b := by
  split <;> omega

theorem colB_le_iff (p : Params) (hc : 1 ≤ p.cell_size) (k : ℕ) :
    k ≤ colB p ↔ k * p.cell_size ≤ p.image_cols - 2 * p.edge_clip - 1 := by
  unfold colB
  rw [Nat.le_div_iff_mul_le (by omega)]

/-- `colStep` with the state fields spelled out. -/
theorem colStep_def (p : Params) (blk ic mx cw : ℕ) (acc : List (ℕ × ℕ)) :
    colStep p ⟨blk, ic, mx, cw, acc⟩ =
    if (mx + p.cell_size) % U < usub cw p.edge_clip then
      if usub p.image_cols p.edge_clip <
          (blk * p.cell_size + monoWidth p * ic + p.edge_clip) % U then
        Sum.inr ((acc ++ [(blk * p.cell_size + monoWidth p * ic + p.edge_clip,
          if usub cw p.edge_clip <
              blk * p.cell_size + monoWidth p * ic + p.edge_clip +
                p.cell_size + p.overlap
          then usub cw p.edge_clip
          else blk * p.cell_size + monoWidth p * ic + p.edge_clip +
            p.cell_size + p.overlap)]).dropLast)
      else
        Sum.inl ⟨blk + 1, ic,
          blk * p.cell_size + monoWidth p * ic + p.edge_clip, cw,
          acc ++ [(blk * p.cell_size + monoWidth p * ic + p.edge_clip,
            if usub cw p.edge_clip <
                blk * p.cell_size + monoWidth p * ic + p.edge_clip +
                  p.cell_size + p.overlap
            then usub cw p.edge_clip
            else blk * p.cell_size + monoWidth p * ic + p.edge_clip +
              p.cell_size + p.overlap)]⟩
    else Sum.inl ⟨0, ic + 1, mx, cw + monoWidth p, acc⟩ := rfl

/-- At the wrap configuration `pC6` (`edge_clip = 11` on image width 10)
the break comparison of the column loop is against
`usub 10 11 = 2^32 - 1`, which no `uint32`-converted `min_x` can ever
exceed: every iteration continues, whatever the state. -/
theorem colStep_pC6_inl (s : ColState) : ∃ s2, colStep pC6 s = Sum.inl s2 := by
  obtain ⟨blk, ic, mx, cw, acc⟩ := s
  rw [colStep_def]
  by_cases h1 : (mx + pC6.cell_size) % U < usub cw pC6.edge_clip
  · have hub : usub pC6.image_cols pC6.edge_clip = U - 1 := by decide
    have hlt : (blk * pC6.cell_size + monoWidth pC6 * ic + pC6.edge_clip) % U < U :=
      Nat.mod_lt _ (by norm_num [U])
    rw [if_pos h1, if_neg (by rw [hub]; omega)]
    exact ⟨_, rfl⟩
  · rw [if_neg h1]
    exact ⟨_, rfl⟩

/-- From any state, the column loop at `pC6` never finishes. -/
theorem colRun_pC6_none : ∀ (fuel : ℕ) (s : ColState), colRun pC6 fuel s = none := by
  intro fuel
  induction fuel with
  | zero => intro s; rfl
  | succ n ih =>
    intro s
    obtain ⟨s2, hstep⟩ := colStep_pC6_inl s
    have h1 : colRun pC6 (n + 1) s = colRun pC6 n s2 := by
      rw [colRun, hstep]
    rw [h1]
    exact ih s2

/-- **C9 counterexample**.  The configuration `pC6` (width 10,
`edge_clip` 11, `cell_size` 1, one image) satisfies the claim's
preconditions `cell_size ≥ 1` and `mono_width ≥ 1`, yet the column loop
never terminates for any fuel: `total_width - edge_clip` wraps to
`2^32 - 1` in `uint32`, the break test `min_x > total_width - edge_clip`
can never fire, and both loop branches continue.  The claim's
precondition list is therefore insufficient. -/
theorem column_loop_nontermination :
    1 ≤ pC6.cell_size ∧ 1 ≤ monoWidth pC6 ∧ ∀ fuel, groupX pC6 fuel = none := by
  refine ⟨by decide, by decide, ?_⟩
  intro fuel
  exact colRun_pC6_none fuel (colInit pC6)

/-- A non-breaking push of tile `k` (single image, first pass). -/
theorem colStep_push (p : Params)
    (hc : 1 ≤ p.cell_size) (he1 : 1 ≤ p.edge_clip)
    (hne : 2 * p.edge_clip < p.image_cols)
    (hsm : 2 * p.image_cols + p.cell_size + p.edge_clip < U)
    (k : ℕ) (hk1 : 1 ≤ k) (hkB : k ≤ colB p) (acc : List (ℕ × ℕ)) :
    colStep p ⟨k, 0, p.edge_clip + (k - 1) * p.cell_size, p.image_cols, acc⟩ =
    Sum.inl ⟨k + 1, 0, p.edge_clip + k * p.cell_size, p.image_cols,
      acc ++ [colTile p k]⟩ := by
  have hW : usub p.image_cols p.edge_clip = p.image_cols - p.edge_clip :=
    usub_of_le _ _ (by omega) (by omega)
  have hkc : (k - 1) * p.cell_size + p.cell_size = k * p.cell_size := by
    obtain ⟨j, rfl⟩ : ∃ j, k = j + 1 := ⟨k - 1, by omega⟩
    simp [Nat.succ_mul]
  have hkB' : k * p.cell_size ≤ p.image_cols - 2 * p.edge_clip - 1 :=
    (colB_le_iff p hc k).mp hkB
  rw [colStep_def]
  rw [if_pos (by rw [Nat.mod_eq_of_lt (by omega), hW]; omega)]
  rw [if_neg (by
    simp only [Nat.mul_zero, Nat.add_zero]
    rw [Nat.mod_eq_of_lt (by omega), hW]
    omega)]
  simp only [Nat.mul_zero, Nat.add_zero, hW, ite_lt_eq_min]
  rw [Nat.add_comm (k * p.cell_size) p.edge_clip]
  rfl

/-- The first iteration pushes tile 0. -/
theorem colStep_first (p : Params) (hnum : p.num_images = 1)
    (hc : 1 ≤ p.cell_size) (he1 : 1 ≤ p.edge_clip)
    (hne : 2 * p.edge_clip < p.image_cols)
    (hcW : p.cell_size < p.image_cols - p.edge_clip)
    (hsm : 2 * p.image_cols + p.cell_size + p.edge_clip < U) :
    colStep p (colInit p) =
    Sum.inl ⟨1, 0, p.edge_clip + 0 * p.cell_size, p.image_cols,
      [] ++ [colTile p 0]⟩ := by
  have hmono : monoWidth p = p.image_cols := by
    unfold monoWidth; rw [hnum, Nat.div_one]
  have hW : usub p.image_cols p.edge_clip = p.image_cols - p.edge_clip :=
    usub_of_le _ _ (by omega) (by omega)
  show colStep p ⟨0, 0, 0, monoWidth p, []⟩ = _
  rw [hmono, colStep_def]
  rw [if_pos (by rw [Nat.mod_eq_of_lt (by omega), hW]; omega)]
  rw [if_neg (by
    simp only [Nat.mul_zero, Nat.zero_mul, Nat.zero_add]
    rw [Nat.mod_eq_of_lt (by omega), hW]
    omega)]
  simp only [Nat.mul_zero, Nat.zero_mul, Nat.add_zero, Nat.zero_add, hW, ite_lt_eq_min]
  simp only [colTile, Nat.zero_mul, Nat.add_zero]

/-- After the last real tile the loop wraps into the phantom image. -/
theorem colStep_wrap (p : Params) (hnum : p.num_images = 1)
    (hc : 1 ≤ p.cell_size) (he1 : 1 ≤ p.edge_clip)
    (hne : 2 * p.edge_clip < p.image_cols)
    (hsm : 2 * p.image_cols + p.cell_size + p.edge_clip < U)
    (acc : List (ℕ × ℕ)) :
    colStep p ⟨colB p + 1, 0, p.edge_clip + colB p * p.cell_size,
      p.image_cols, acc⟩ =
    Sum.inl ⟨0, 1, p.edge_clip + colB p * p.cell_size,
      p.image_cols + p.image_cols, acc⟩ := by
  have hmono : monoWidth p = p.image_cols := by
    unfold monoWidth; rw [hnum, Nat.div_one]
  have hW : usub p.image_cols p.edge_clip = p.image_cols - p.edge_clip :=
    usub_of_le _ _ (by omega) (by omega)
  have hkB' : ¬ ((colB p + 1) * p.cell_size ≤ p.image_cols - 2 * p.edge_clip - 1) := by
    intro hcon
    exact absurd ((colB_le_iff p hc _).mpr hcon) (by omega)
  have hmul : (colB p + 1) * p.cell_size = colB p * p.cell_size + p.cell_size := by
    simp [Nat.succ_mul]
  have hBle : colB p * p.cell_size ≤ p.image_cols - 2 * p.edge_clip - 1 :=
    (colB_le_iff p hc _).mp (le_refl _)
  rw [colStep_def]
  rw [if_neg (by rw [Nat.mod_eq_of_lt (by omega), hW]; omega), hmono]

/-- The phantom push is popped again and the loop breaks. -/
theorem colStep_phantom (p : Params) (hnum : p.num_images = 1)
    (hc : 1 ≤ p.cell_size) (he1 : 1 ≤ p.edge_clip)
    (hne : 2 * p.edge_clip < p.image_cols)
    (hcW : p.cell_size < p.image_cols - p.edge_clip)
    (hsm : 2 * p.image_cols + p.cell_size + p.edge_clip < U)
    (acc : List (ℕ × ℕ)) :
    colStep p ⟨0, 1, p.edge_clip + colB p * p.cell_size,
      p.image_cols + p.image_cols, acc⟩ = Sum.inr acc := by
  have hmono : monoWidth p = p.image_cols := by
    unfold monoWidth; rw [hnum, Nat.div_one]
  have hW : usub p.image_cols p.edge_clip = p.image_cols - p.edge_clip :=
    usub_of_le _ _ (by omega) (by omega)
  have hWW : usub (p.image_cols + p.image_cols) p.edge_clip =
      p.image_cols + p.image_cols - p.edge_clip :=
    usub_of_le _ _ (by omega) (by omega)
  have hBle : colB p * p.cell_size ≤ p.image_cols - 2 * p.edge_clip - 1 :=
    (colB_le_iff p hc _).mp (le_refl _)
  rw [colStep_def, hmono]
  rw [if_pos (by rw [Nat.mod_eq_of_lt (by omega), hWW]; omega)]
  rw [if_pos (by
    simp only [Nat.zero_mul, Nat.mul_one, Nat.zero_add]
    rw [Nat.mod_eq_of_lt (by omega), hW]
    omega)]
  rw [List.dropLast_concat]

theorem colTiles_succ (p : Params) (k : ℕ) :
    colTiles p (k + 1) = colTiles p k ++ [colTile p k] := by
  unfold colTiles
  rw [List.range_succ, List.map_append, List.map_singleton]

/-- Running the loop from the state after `k` pushes yields all tiles. -/
theorem colRun_from (p : Params) (hnum : p.num_images = 1)
    (hc : 1 ≤ p.cell_size) (he1 : 1 ≤ p.edge_clip)
    (hne : 2 * p.edge_clip < p.image_cols)
    (hcW : p.cell_size < p.image_cols - p.edge_clip)
    (hsm : 2 * p.image_cols + p.cell_size + p.edge_clip < U) :
    ∀ j k, 1 ≤ k → k + j = colB p + 1 →
    colRun p (j + 2) ⟨k, 0, p.edge_clip + (k - 1) * p.cell_size,
      p.image_cols, colTiles p k⟩ = some (colTiles p (colB p + 1)) := by
  intro j
  induction j with
  | zero =>
    intro k hk1 hkj
    have hk : k = colB p + 1 := by omega
    subst hk
    have hsub : colB p + 1 - 1 = colB p := by omega
    rw [hsub]
    have h2 : (0 : ℕ) + 2 = 1 + 1 := rfl
    have hstep1 : colRun p (1 + 1) ⟨colB p + 1, 0,
        p.edge_clip + colB p * p.cell_size, p.image_cols, colTiles p (colB p + 1)⟩ =
        colRun p 1 ⟨0, 1, p.edge_clip + colB p * p.cell_size,
          p.image_cols + p.image_cols, colTiles p (colB p + 1)⟩ := by
      rw [colRun, colStep_wrap p hnum hc he1 hne hsm]
    have hstep2 : colRun p 1 ⟨0, 1, p.edge_clip + colB p * p.cell_size,
        p.image_cols + p.image_cols, colTiles p (colB p + 1)⟩ =
        some (colTiles p (colB p + 1)) := by
      rw [colRun, colStep_phantom p hnum hc he1 hne hcW hsm]
    rw [h2, hstep1, hstep2]
  | succ j ih =>
    intro k hk1 hkj
    have hkB : k ≤ colB p := by omega
    have h3 : j + 1 + 2 = (j + 2) + 1 := by omega
    have hstep : colRun p ((j + 2) + 1) ⟨k, 0,
        p.edge_clip + (k - 1) * p.cell_size, p.image_cols, colTiles p k⟩ =
        colRun p (j + 2) ⟨k + 1, 0, p.edge_clip + k * p.cell_size,
          p.image_cols, colTiles p k ++ [colTile p k]⟩ := by
      rw [colRun, colStep_push p hc he1 hne hsm k hk1 hkB]
    rw [h3, hstep, ← colTiles_succ]
    exact ih (k + 1) (by omega) (by omega)

/-- Closed form of the column bounds for a single image. -/
theorem groupX_singleImage (p : Params) (hnum : p.num_images = 1)
    (hc : 1 ≤ p.cell_size) (he1 : 1 ≤ p.edge_clip)
    (hne : 2 * p.edge_clip < p.image_cols)
    (hcW : p.cell_size < p.image_cols - p.edge_clip)
    (hsm : 2 * p.image_cols + p.cell_size + p.edge_clip < U) :
    groupX p (colB p + 3) = some (colTiles p (colB p + 1)) := by
  unfold groupX
  have h1 : colB p + 3 = (colB p + 2) + 1 := by omega
  have hstep : colRun p ((colB p + 2) + 1) (colInit p) =
      colRun p (colB p + 2) ⟨1, 0, p.edge_clip + 0 * p.cell_size,
        p.image_cols, [] ++ [colTile p 0]⟩ := by
    rw [colRun, colStep_first p hnum hc he1 hne hcW hsm]
  rw [h1, hstep]
  exact colRun_from p hnum hc he1 hne hcW hsm (colB p) 1 le_rfl (by omega)

/-- Every clipped-interior column is covered by some column tile. -/
theorem colTiles_cover (p : Params) (hc : 1 ≤ p.cell_size)
    (hne : 2 * p.edge_clip < p.image_cols) (px : ℕ)
    (h1 : p.edge_clip ≤ px) (h2 : px < p.image_cols - p.edge_clip) :
    ∃ t ∈ colTiles p (colB p + 1), t.1 ≤ px ∧ px < t.2 := by
  have hdm := Nat.div_add_mod (px - p.edge_clip) p.cell_size
  have hmod : (px - p.edge_clip) % p.cell_size < p.cell_size :=
    Nat.mod_lt _ (by omega)
  have hcm : p.cell_size * ((px - p.edge_clip) / p.cell_size) =
      ((px - p.edge_clip) / p.cell_size) * p.cell_size := Nat.mul_comm _ _
  have hkB : (px - p.edge_clip) / p.cell_size ≤ colB p := by
    rw [colB_le_iff p hc]
    omega
  refine ⟨colTile p ((px - p.edge_clip) / p.cell_size), ?_, ?_, ?_⟩
  · unfold colTiles
    exact List.mem_map_of_mem _ (List.mem_range.mpr (by omega))
  · show p.edge_clip + (px - p.edge_clip) / p.cell_size * p.cell_size ≤ px
    omega
  · show px < min (p.edge_clip + (px - p.edge_clip) / p.cell_size * p.cell_size +
      p.cell_size + p.overlap) (p.image_cols - p.edge_clip)
    rw [lt_min_iff]
    constructor <;> omega

/-- Column tiles stay inside the clipped interior. -/
theorem colTiles_contained (p : Params) (t : ℕ × ℕ)
    (ht : t ∈ colTiles p (colB p + 1)) :
    p.edge_clip ≤ t.1 ∧ t.2 ≤ p.image_cols - p.edge_clip := by
  unfold colTiles at ht
  obtain ⟨k, _, rfl⟩ := List.mem_map.mp ht
  exact ⟨Nat.le_add_right _ _, min_le_right _ _⟩

/-- A kept row window is a member of `groupY`. -/
theorem groupY_mem (p : Params)
    (hsmY : p.image_rows < U) (hEH : p.edge_clip ≤ p.image_rows)
    (hVH : p.overlap ≤ p.image_rows - p.edge_clip) (j : ℕ)
    (hjr : j < p.image_rows / p.cell_size + 1)
    (hkeep : ¬ (p.image_rows - p.edge_clip - p.overlap ≤
      p.edge_clip + j * p.cell_size)) :
    (p.edge_clip + j * p.cell_size,
      if p.image_rows - p.edge_clip < p.edge_clip + j * p.cell_size +
          p.cell_size + p.overlap
      then p.image_rows - p.edge_clip
      else p.edge_clip + j * p.cell_size + p.cell_size + p.overlap) ∈ groupY p := by
  have husub1 : usub p.image_rows p.edge_clip = p.image_rows - p.edge_clip :=
    usub_of_le _ _ hsmY hEH
  have husub2 : usub (p.image_rows - p.edge_clip) p.overlap =
      p.image_rows - p.edge_clip - p.overlap :=
    usub_of_le _ _ (by omega) hVH
  unfold groupY
  simp only [husub1, husub2]
  exact List.mem_filterMap.mpr ⟨j, List.mem_range.mpr hjr, by rw [if_neg hkeep]⟩

/-- Every clipped-interior row is covered by some row window. -/
theorem groupY_cover (p : Params) (hc : 1 ≤ p.cell_size)
    (hneY : 2 * p.edge_clip < p.image_rows)
    (hov : p.overlap < p.image_rows - 2 * p.edge_clip)
    (hsmY : p.image_rows < U) (py : ℕ)
    (hp1 : p.edge_clip ≤ py) (hp2 : py < p.image_rows - p.edge_clip) :
    ∃ t ∈ groupY p, t.1 ≤ py ∧ py < t.2 := by
  have hdm := Nat.div_add_mod (py - p.edge_clip) p.cell_size
  have hmod : (py - p.edge_clip) % p.cell_size < p.cell_size :=
    Nat.mod_lt _ (by omega)
  have hcm : p.cell_size * ((py - p.edge_clip) / p.cell_size) =
      ((py - p.edge_clip) / p.cell_size) * p.cell_size := Nat.mul_comm _ _
  have hkr : (py - p.edge_clip) / p.cell_size < p.image_rows / p.cell_size + 1 := by
    have := Nat.div_le_div_right (c := p.cell_size)
      (show py - p.edge_clip ≤ p.image_rows by omega)
    omega
  by_cases hkeep : p.image_rows - p.edge_clip - p.overlap ≤
      p.edge_clip + (py - p.edge_clip) / p.cell_size * p.cell_size
  · -- own window skipped: use the last kept window J
    have hJdm := Nat.div_add_mod
      (p.image_rows - p.edge_clip - p.overlap - 1 - p.edge_clip) p.cell_size
    have hJmod : (p.image_rows - p.edge_clip - p.overlap - 1 - p.edge_clip) %
        p.cell_size < p.cell_size := Nat.mod_lt _ (by omega)
    have hJcm : p.cell_size *
        ((p.image_rows - p.edge_clip - p.overlap - 1 - p.edge_clip) / p.cell_size) =
        ((p.image_rows - p.edge_clip - p.overlap - 1 - p.edge_clip) / p.cell_size) *
          p.cell_size := Nat.mul_comm _ _
    have hJr : (p.image_rows - p.edge_clip - p.overlap - 1 - p.edge_clip) /
        p.cell_size < p.image_rows / p.cell_size + 1 := by
      have := Nat.div_le_div_right (c := p.cell_size)
        (show p.image_rows - p.edge_clip - p.overlap - 1 - p.edge_clip ≤
          p.image_rows by omega)
      omega
    refine ⟨_, groupY_mem p hsmY (by omega) (by omega) _ hJr (by omega), ?_, ?_⟩
    · show p.edge_clip + _ * p.cell_size ≤ py
      omega
    · show py < if p.image_rows - p.edge_clip < _ then p.image_rows - p.edge_clip
        else _
      split <;> omega
  · refine ⟨_, groupY_mem p hsmY (by omega) (by omega) _ hkr hkeep, ?_, ?_⟩
    · show p.edge_clip + _ * p.cell_size ≤ py
      omega
    · show py < if p.image_rows - p.edge_clip < _ then p.image_rows - p.edge_clip
        else _
      split <;> omega

/-- Row windows stay inside the clipped interior. -/
theorem groupY_contained (p : Params)
    (hsmY : p.image_rows < U) (hEH : p.edge_clip ≤ p.image_rows)
    (hVH : p.overlap ≤ p.image_rows - p.edge_clip) (t : ℕ × ℕ)
    (ht : t ∈ groupY p) :
    p.edge_clip ≤ t.1 ∧ t.2 ≤ p.image_rows - p.edge_clip := by
  have husub1 : usub p.image_rows p.edge_clip = p.image_rows - p.edge_clip :=
    usub_of_le _ _ hsmY hEH
  have husub2 : usub (p.image_rows - p.edge_clip) p.overlap =
      p.image_rows - p.edge_clip - p.overlap :=
    usub_of_le _ _ (by omega) hVH
  unfold groupY at ht
  simp only [husub1, husub2] at ht
  obtain ⟨j, _, hj⟩ := List.mem_filterMap.mp ht
  by_cases hkeep : p.image_rows - p.edge_clip - p.overlap ≤
      p.edge_clip + j * p.cell_size
  · rw [if_pos hkeep] at hj
    exact absurd hj (by simp)
  · rw [if_neg hkeep] at hj
    obtain rfl := Option.some_inj.mp hj
    refine ⟨Nat.le_add_right _ _, ?_⟩
    show (if p.image_rows - p.edge_clip < _ then p.image_rows - p.edge_clip
      else _) ≤ p.image_rows - p.edge_clip
    split <;> omega

/-- Witness for `descriptor_launch_pad_frame`: with one keypoint, slot 5
is untouched. -/
theorem descriptor_launch_pad_frame_witness :
    (1 : ℕ) ≤ 5 ∧
    (orbDescriptorLaunch imgDot imgDot (fun _ => 0) (fun _ => 0) 1
      ⟨buf0, fun _ => 0⟩).kps 5 = buf0 5 := by
  refine ⟨by norm_num, ?_⟩
  exact (descriptor_launch_pad_frame imgDot imgDot (fun _ => 0) (fun _ => 0) 1
    ⟨buf0, fun _ => 0⟩).2.2.1 5 (by norm_num)

/-- Bit `t` of a mask-accumulation fold over `acc`. -/
theorem maskBits_testBit (bit : ℕ → Bool) : ∀ (idxs : List ℕ) (acc t : ℕ),
    (idxs.foldl (fun m idx =>
      m ||| ((bit idx).toNat <<< idx) ||| ((bit (idx + 8)).toNat <<< (idx + 8))) acc).testBit t =
    (acc.testBit t || idxs.any (fun idx =>
      (decide (t = idx) && bit idx) || (decide (t = idx + 8) && bit (idx + 8)))) := by
  intro idxs
  induction idxs with
  | nil => intro acc t; simp
  | cons idx rest ih =>
    intro acc t
    rw [List.foldl_cons, ih]
    simp only [Nat.testBit_or, testBit_toNat_shift, List.any_cons]
    cases htd : decide (t = idx) <;> cases hte : decide (t = idx + 8) <;>
      cases hb1 : bit idx <;> cases hb2 : bit (idx + 8) <;>
        simp_all [Bool.or_assoc, Bool.or_comm, Bool.or_left_comm]

/-- Bit `t` of `maskBits`: some `UPDATE_MASK` call set it. -/
theorem maskBits_get (bit : ℕ → Bool) (idxs : List ℕ) (t : ℕ) :
    (maskBits bit idxs).testBit t = idxs.any (fun idx =>
      (decide (t = idx) && bit idx) || (decide (t = idx + 8) && bit (idx + 8))) := by
  unfold maskBits
  rw [maskBits_testBit]
  simp

/-- A single shifted mask bit fits in 16 bits. -/
theorem toNat_shift_lt (bo : Bool) (b : ℕ) (hb : b < 16) : bo.toNat <<< b < 2 ^ 16 := by
  cases bo with
  | false => simp [Nat.shiftLeft_eq]
  | true =>
    simp only [Bool.toNat_true, Nat.shiftLeft_eq, one_mul]
    exact Nat.pow_lt_pow_right (by norm_num) hb

/-- Masks built from circle indices below 8 fit in 16 bits. -/
theorem maskBits_lt16 (bit : ℕ → Bool) : ∀ (idxs : List ℕ), (∀ idx ∈ idxs, idx < 8) →
    maskBits bit idxs < 2 ^ 16 := by
  have main : ∀ (idxs : List ℕ) (acc : ℕ), acc < 2 ^ 16 → (∀ idx ∈ idxs, idx < 8) →
      (idxs.foldl (fun m idx =>
        m ||| ((bit idx).toNat <<< idx) ||| ((bit (idx + 8)).toNat <<< (idx + 8))) acc) < 2 ^ 16 := by
    intro idxs
    induction idxs with
    | nil => intro acc hacc _; exact hacc
    | cons idx rest ih =>
      intro acc hacc hall
      rw [List.foldl_cons]
      have h1 : idx < 8 := hall idx (by simp)
      apply ih
      · exact Nat.or_lt_two_pow
          (Nat.or_lt_two_pow hacc (toNat_shift_lt _ _ (by omega)))
          (toNat_shift_lt _ _ (by omega))
      · intro j hj; exact hall j (by simp [hj])
  intro idxs h
  exact main idxs 0 (by norm_num) h

/-- Bitwise characterization of `x &&& mask = mask`. -/
theorem and_mask_eq (x mask : ℕ) :
    x &&& mask = mask ↔ ∀ j, mask.testBit j = true → x.testBit j = true := by
  constructor
  · intro h j hj
    have h2 := congrArg (fun n => n.testBit j) h
    simp only [Nat.testBit_and] at h2
    rw [hj, Bool.and_true] at h2
    exact h2
  · intro h
    apply Nat.eq_of_testBit_eq
    intro j
    rw [Nat.testBit_and]
    by_cases hj : mask.testBit j = true
    · rw [hj, Bool.and_true, h j hj]
    · rw [Bool.not_eq_true] at hj
      rw [hj, Bool.and_false]

/-- Bits of the `EVEN_MASK` constant 85. -/
theorem testBit_85 (j : ℕ) :
    (85 : ℕ).testBit j =
      (decide (j = 0) || decide (j = 2) || decide (j = 4) || decide (j = 6)) := by
  rcases Nat.lt_or_ge j 7 with h | h
  · interval_cases j <;> decide
  · rw [Nat.testBit_eq_false_of_lt
      (lt_of_lt_of_le (by norm_num : (85 : ℕ) < 2 ^ 7) (Nat.pow_le_pow_right (by norm_num) h))]
    rw [decide_eq_false (by omega), decide_eq_false (by omega),
      decide_eq_false (by omega), decide_eq_false (by omega)]
    rfl

/-- Bits of the full-circle fold constant 255. -/
theorem testBit_255 (j : ℕ) : (255 : ℕ).testBit j = decide (j < 8) := by
  have h : (255 : ℕ) = 2 ^ 8 - 1 := by norm_num
  rw [h, Nat.testBit_two_pow_sub_one]

/-- Bits of the shifted 9-bit `CHECK` window constant. -/
theorem testBit_511_shift (i j : ℕ) :
    ((511 : ℕ) <<< i).testBit j = decide (i ≤ j ∧ j < i + 9) := by
  have h511 : (511 : ℕ) = 2 ^ 9 - 1 := by norm_num
  rw [Nat.testBit_shiftLeft, h511, Nat.testBit_two_pow_sub_one]
  by_cases h : i ≤ j
  · by_cases h9 : j < i + 9
    · rw [decide_eq_true (show j ≥ i from h), decide_eq_true (show j - i < 9 by omega),
        decide_eq_true (show i ≤ j ∧ j < i + 9 from ⟨h, h9⟩)]
      rfl
    · rw [decide_eq_false (show ¬ j - i < 9 by omega),
        decide_eq_false (show ¬ (i ≤ j ∧ j < i + 9) by tauto), Bool.and_false]
  · rw [decide_eq_false (show ¬ j ≥ i from h),
      decide_eq_false (show ¬ (i ≤ j ∧ j < i + 9) by tauto), Bool.false_and]

/-- The `CHECK` comparison holds iff the 9 window bits are set. -/
theorem checkWindow_iff (m i : ℕ) :
    checkWindow m i = true ↔ ∀ t ≤ 8, m.testBit (i + t) = true := by
  unfold checkWindow
  rw [beq_iff_eq, and_mask_eq]
  constructor
  · intro h t ht
    exact h (i + t) (by rw [testBit_511_shift]; exact decide_eq_true ⟨by omega, by omega⟩)
  · intro h j hj
    rw [testBit_511_shift] at hj
    have hj2 : i ≤ j ∧ j < i + 9 := of_decide_eq_true hj
    have hje : j = i + (j - i) := by omega
    rw [hje]
    exact h (j - i) (by omega)

/-- Bits of the duplicated 16-bit mask `m | (m << 16)` wrap modulo 16. -/
theorem dup_testBit (m j : ℕ) (hm : m < 2 ^ 16) (hj : j < 32) :
    (m ||| m <<< 16).testBit j = m.testBit (j % 16) := by
  rw [Nat.testBit_or, Nat.testBit_shiftLeft]
  by_cases h : j < 16
  · rw [Nat.mod_eq_of_lt h, decide_eq_false (by omega : ¬ j ≥ 16), Bool.false_and,
      Bool.or_false]
  · have h16 : j ≥ 16 := by omega
    rw [decide_eq_true h16, Bool.true_and]
    have hbit : m.testBit j = false :=
      Nat.testBit_eq_false_of_lt (lt_of_lt_of_le hm (Nat.pow_le_pow_right (by norm_num) h16))
    rw [hbit, Bool.false_or]
    congr 1
    omega

/-- Some `CHECK` window fires on the duplicated mask iff the bit
predicate has a cyclic run of 9. -/
theorem run_iff_any (bit : ℕ → Bool) (m : ℕ) (hm : m < 2 ^ 16)
    (hbit : ∀ s, s < 16 → m.testBit s = bit s) :
    ((List.range 16).any (fun i => checkWindow (m ||| m <<< 16) i) = true ↔ hasRun9 bit) := by
  rw [List.any_eq_true]
  unfold hasRun9
  constructor
  · rintro ⟨i, hi, hw⟩
    have hi16 := List.mem_range.mp hi
    refine ⟨i, hi16, ?_⟩
    intro t ht
    have hb := (checkWindow_iff _ i).mp hw t ht
    rw [dup_testBit m (i + t) hm (by omega), hbit _ (Nat.mod_lt _ (by norm_num))] at hb
    exact hb
  · rintro ⟨r, hr, hrun⟩
    refine ⟨r, List.mem_range.mpr hr, ?_⟩
    rw [checkWindow_iff]
    intro t ht
    rw [dup_testBit m (r + t) hm (by omega), hbit _ (Nat.mod_lt _ (by norm_num))]
    exact hrun t ht

/-- Every cyclic 9-run among 16 positions meets `e` or its antipode
`e + 8`, for every `e < 8`. -/
theorem run_antipodal :
    ∀ r < 16, ∀ e < 8, ∃ t ≤ 8, (r + t) % 16 = e ∨ (r + t) % 16 = e + 8 := by decide

/-- A 9-run forces one bit of every antipodal pair. -/
theorem run_bit_or_bit8 (bit : ℕ → Bool) (h : hasRun9 bit) (e : ℕ) (he : e < 8) :
    bit e = true ∨ bit (e + 8) = true := by
  obtain ⟨r, hr, hrun⟩ := h
  obtain ⟨t, ht, hcase⟩ := run_antipodal r hr e he
  rcases hcase with hc | hc
  · left; rw [← hc]; exact hrun t ht
  · right; rw [← hc]; exact hrun t ht

/-- A 9-run sets some bit of the stage-1 axis mask. -/
theorem stage1_of_run (bit : ℕ → Bool) (h : hasRun9 bit) :
    ∃ t, (maskBits bit [0]).testBit t = true := by
  rcases run_bit_or_bit8 bit h 0 (by norm_num) with hb | hb
  · exact ⟨0, by rw [maskBits_get]; simp [hb]⟩
  · exact ⟨8, by rw [maskBits_get]; simp [hb]⟩

/-- A 9-run passes the stage-2 `EVEN_MASK = 85` fold test. -/
theorem stage2_of_run (bit : ℕ → Bool) (h : hasRun9 bit) :
    ((maskBits bit [0, 2, 4, 6] ||| maskBits bit [0, 2, 4, 6] >>> 8) &&& 85) = 85 := by
  rw [and_mask_eq]
  intro j hj
  rw [testBit_85] at hj
  have hj2 : j = 0 ∨ j = 2 ∨ j = 4 ∨ j = 6 := by
    simpa [or_assoc] using hj
  have hmem : j ∈ [0, 2, 4, 6] := by rcases hj2 with rfl | rfl | rfl | rfl <;> decide
  rw [Nat.testBit_or, Nat.testBit_shiftRight, maskBits_get, maskBits_get]
  rcases run_bit_or_bit8 bit h j (by rcases hj2 with rfl | rfl | rfl | rfl <;> norm_num)
    with hb | hb
  · rw [Bool.or_eq_true]; left
    rw [List.any_eq_true]
    exact ⟨j, hmem, by simp [hb]⟩
  · rw [Bool.or_eq_true]; right
    rw [List.any_eq_true]
    refine ⟨j, hmem, ?_⟩
    have h8 : 8 + j = j + 8 := by omega
    simp [h8, hb]

/-- A 9-run passes the stage-3 full-circle `255` fold test. -/
theorem stage3_of_run (bit : ℕ → Bool) (h : hasRun9 bit) :
    ((maskBits bit [0, 2, 4, 6, 1, 3, 5, 7] |||
      maskBits bit [0, 2, 4, 6, 1, 3, 5, 7] >>> 8) &&& 255) = 255 := by
  rw [and_mask_eq]
  intro j hj
  rw [testBit_255] at hj
  have hj8 : j < 8 := of_decide_eq_true hj
  have hmem : j ∈ [0, 2, 4, 6, 1, 3, 5, 7] := by interval_cases j <;> decide
  rw [Nat.testBit_or, Nat.testBit_shiftRight, maskBits_get, maskBits_get]
  rcases run_bit_or_bit8 bit h j hj8 with hb | hb
  · rw [Bool.or_eq_true]; left
    rw [List.any_eq_true]
    exact ⟨j, hmem, by simp [hb]⟩
  · rw [Bool.or_eq_true]; right
    rw [List.any_eq_true]
    refine ⟨j, hmem, ?_⟩
    have h8 : 8 + j = j + 8 := by omega
    simp [h8, hb]

/-- Bit `s < 16` of the full mask is circle bit `s`. -/
theorem maskBits_full_testBit (bit : ℕ → Bool) (s : ℕ) (hs : s < 16) :
    (maskBits bit [0, 2, 4, 6, 1, 3, 5, 7]).testBit s = bit s := by
  rw [maskBits_get]
  interval_cases s <;> simp

/-- A 9-run makes some `CHECK` window of the final stage fire. -/
theorem stage4_of_run (bit : ℕ → Bool) (h : hasRun9 bit) :
    (List.range 16).any (fun i =>
      checkWindow (maskBits bit [0, 2, 4, 6, 1, 3, 5, 7] |||
        maskBits bit [0, 2, 4, 6, 1, 3, 5, 7] <<< 16) i) = true := by
  exact (run_iff_any bit _ (maskBits_lt16 bit _ (by decide))
    (fun s hs => maskBits_full_testBit bit s hs)).mpr h


/-- Peeling an early-exit `if _ then false` branch. -/
theorem ite_false_true {c : Prop} [Decidable c] {x : Bool}
    (h : (if c then false else x) = true) : x = true := by
  by_cases hc : c
  · rw [if_pos hc] at h; exact absurd h (by simp)
  · rwa [if_neg hc] at h

/-- Entering the else branch of an early-exit `if _ then false`. -/
theorem ite_false_intro {c : Prop} [Decidable c] {x : Bool}
    (hc : ¬ c) (hx : x = true) : (if c then false else x) = true := by
  rwa [if_neg hc]

/-- The staged FAST test of `fastExtKernelImpl` passes iff the dark
or the bright circle bits contain a cyclic run of 9 — the classic
FAST-16/9 criterion. -/
theorem isFastPixel_iff_run (img : Img) (θ : ℕ) (x y : ℤ) :
    isFastPixel img θ x y = true ↔
      hasRun9 (darkBit img θ x y) ∨ hasRun9 (brightBit img θ x y) := by
  constructor
  · intro h
    simp only [isFastPixel] at h
    have h4 := ite_false_true (ite_false_true (ite_false_true h))
    rw [Bool.or_eq_true] at h4
    rcases h4 with h4 | h4
    · exact Or.inl ((run_iff_any _ _ (maskBits_lt16 _ _ (by decide))
        (fun s hs => maskBits_full_testBit _ s hs)).mp h4)
    · exact Or.inr ((run_iff_any _ _ (maskBits_lt16 _ _ (by decide))
        (fun s hs => maskBits_full_testBit _ s hs)).mp h4)
  · intro h
    simp only [isFastPixel]
    refine ite_false_intro ?_ (ite_false_intro ?_ (ite_false_intro ?_ ?_))
    · intro hz
      rw [beq_iff_eq] at hz
      rcases h with hrun | hrun
      · obtain ⟨t, hbt⟩ := stage1_of_run _ hrun
        have horbit : (maskBits (darkBit img θ x y) [0] |||
            maskBits (brightBit img θ x y) [0]).testBit t = true := by
          rw [Nat.testBit_or, hbt, Bool.true_or]
        rw [hz] at horbit
        simp at horbit
      · obtain ⟨t, hbt⟩ := stage1_of_run _ hrun
        have horbit : (maskBits (darkBit img θ x y) [0] |||
            maskBits (brightBit img θ x y) [0]).testBit t = true := by
          rw [Nat.testBit_or, hbt, Bool.or_true]
        rw [hz] at horbit
        simp at horbit
    · intro hz
      rw [Bool.and_eq_true, bne_iff_ne, bne_iff_ne] at hz
      rcases h with hrun | hrun
      · exact hz.1 (stage2_of_run _ hrun)
      · exact hz.2 (stage2_of_run _ hrun)
    · intro hz
      rw [Bool.and_eq_true, bne_iff_ne, bne_iff_ne] at hz
      rcases h with hrun | hrun
      · exact hz.1 (stage3_of_run _ hrun)
      · exact hz.2 (stage3_of_run _ hrun)
    · rw [Bool.or_eq_true]
      rcases h with hrun | hrun
      · exact Or.inl (stage4_of_run _ hrun)
      · exact Or.inr (stage4_of_run _ hrun)


/-- The `(short)` cast is the identity on in-range values. -/
theorem toShort_id (z : ℤ) (h1 : -(2 ^ 15) ≤ z) (h2 : z < 2 ^ 15) : toShort z = z := by
  unfold toShort
  have hmod : (z + 2 ^ 15) % 2 ^ 16 = z + 2 ^ 15 :=
    Int.emod_eq_of_lt (by omega) (by omega)
  omega

/-- On an 8-bit image the differences `d[k]` never overflow `short`. -/
theorem dVal_byte (img : Img) (x y : ℤ) (hB : ImgByte img) (k : ℕ) :
    dVal img x y k = img x y - circPt img x y (k % 16) := by
  unfold dVal
  obtain ⟨hc1, hc2⟩ := hB x y
  obtain ⟨hd1, hd2⟩ := hB (x + (circleOfs (k % 16)).1) (y + (circleOfs (k % 16)).2)
  unfold circPt
  exact toShort_id _ (by omega) (by omega)

/-- Dark mask bit `k` holds iff `d[k]` exceeds the threshold. -/
theorem darkBit_iff_dVal (img : Img) (θ : ℕ) (x y : ℤ) (hB : ImgByte img)
    (k : ℕ) (hk : k < 16) :
    darkBit img θ x y k = true ↔ (θ : ℤ) < dVal img x y k := by
  rw [dVal_byte img x y hB k, Nat.mod_eq_of_lt hk]
  unfold darkBit
  rw [decide_eq_true_eq]
  omega

/-- Bright mask bit `k` holds iff `d[k]` is below the negated
threshold. -/
theorem brightBit_iff_dVal (img : Img) (θ : ℕ) (x y : ℤ) (hB : ImgByte img)
    (k : ℕ) (hk : k < 16) :
    brightBit img θ x y k = true ↔ dVal img x y k < -(θ : ℤ) := by
  rw [dVal_byte img x y hB k, Nat.mod_eq_of_lt hk]
  unfold brightBit
  rw [decide_eq_true_eq]
  omega

/-- Strict lower bounds through the rotation-max fold. -/
theorem foldl_maxStep_iff (d : ℕ → ℤ) (c : ℤ) : ∀ (l : List ℕ) (init : ℤ),
    (c < l.foldl (maxStep d) init ↔ c < init ∨ ∃ r ∈ l, c < arcMin9 d r) := by
  intro l
  induction l with
  | nil => intro init; simp
  | cons a t ih =>
    intro init
    rw [List.foldl_cons, ih]
    simp only [maxStep, lt_max_iff]
    constructor
    · rintro ((h | h) | ⟨r, hr, hlt⟩)
      · exact Or.inl h
      · exact Or.inr ⟨a, List.mem_cons_self a t, h⟩
      · exact Or.inr ⟨r, List.mem_cons_of_mem a hr, hlt⟩
    · rintro (h | ⟨r, hr, hlt⟩)
      · exact Or.inl (Or.inl h)
      · rcases List.mem_cons.mp hr with rfl | hr2
        · exact Or.inl (Or.inr hlt)
        · exact Or.inr ⟨r, hr2, hlt⟩

/-- Strict upper bounds through the rotation-min fold. -/
theorem foldl_minStep_iff (d : ℕ → ℤ) (c : ℤ) : ∀ (l : List ℕ) (init : ℤ),
    (l.foldl (minStep d) init < c ↔ init < c ∨ ∃ r ∈ l, arcMax9 d r < c) := by
  intro l
  induction l with
  | nil => intro init; simp
  | cons a t ih =>
    intro init
    rw [List.foldl_cons, ih]
    simp only [minStep, min_lt_iff]
    constructor
    · rintro ((h | h) | ⟨r, hr, hlt⟩)
      · exact Or.inl h
      · exact Or.inr ⟨a, List.mem_cons_self a t, h⟩
      · exact Or.inr ⟨r, List.mem_cons_of_mem a hr, hlt⟩
    · rintro (h | ⟨r, hr, hlt⟩)
      · exact Or.inl (Or.inl h)
      · rcases List.mem_cons.mp hr with rfl | hr2
        · exact Or.inl (Or.inr hlt)
        · exact Or.inr ⟨r, hr2, hlt⟩

/-- Strict lower bounds through an arc-min fold. -/
theorem foldl_min_gt_iff (f : ℕ → ℤ) (c : ℤ) : ∀ (l : List ℕ) (init : ℤ),
    (c < l.foldl (fun a j => min a (f j)) init ↔ c < init ∧ ∀ j ∈ l, c < f j) := by
  intro l
  induction l with
  | nil => intro init; simp
  | cons a t ih =>
    intro init
    rw [List.foldl_cons, ih]
    rw [lt_min_iff]
    constructor
    · rintro ⟨⟨h1, h2⟩, h3⟩
      refine ⟨h1, ?_⟩
      intro j hj
      rcases List.mem_cons.mp hj with rfl | hj2
      · exact h2
      · exact h3 j hj2
    · rintro ⟨h1, h2⟩
      exact ⟨⟨h1, h2 a (List.mem_cons_self a t)⟩,
        fun j hj => h2 j (List.mem_cons_of_mem a hj)⟩

/-- Strict upper bounds through an arc-max fold. -/
theorem foldl_max_lt_iff (f : ℕ → ℤ) (c : ℤ) : ∀ (l : List ℕ) (init : ℤ),
    (l.foldl (fun a j => max a (f j)) init < c ↔ init < c ∧ ∀ j ∈ l, f j < c) := by
  intro l
  induction l with
  | nil => intro init; simp
  | cons a t ih =>
    intro init
    rw [List.foldl_cons, ih]
    rw [max_lt_iff]
    constructor
    · rintro ⟨⟨h1, h2⟩, h3⟩
      refine ⟨h1, ?_⟩
      intro j hj
      rcases List.mem_cons.mp hj with rfl | hj2
      · exact h2
      · exact h3 j hj2
    · rintro ⟨h1, h2⟩
      exact ⟨⟨h1, h2 a (List.mem_cons_self a t)⟩,
        fun j hj => h2 j (List.mem_cons_of_mem a hj)⟩

/-- The 9-point arc minimum exceeds `c` iff every arc point does. -/
theorem arcMin9_gt_iff (d : ℕ → ℤ) (r : ℕ) (c : ℤ) :
    c < arcMin9 d r ↔ ∀ t ≤ 8, c < d ((r + t) % 16) := by
  have h := foldl_min_gt_iff (fun j => d ((r + j) % 16)) c [1, 2, 3, 4, 5, 6, 7, 8] (d (r % 16))
  constructor
  · intro hlt t ht
    obtain ⟨h0, hmem⟩ := h.mp hlt
    rcases Nat.eq_zero_or_pos t with rfl | hpos
    · simpa using h0
    · exact hmem t (by interval_cases t <;> simp)
  · intro hall
    apply h.mpr
    refine ⟨by simpa using hall 0 (by norm_num), ?_⟩
    intro j hj
    have hj8 : j ≤ 8 := by fin_cases hj <;> norm_num
    exact hall j hj8

/-- The 9-point arc maximum is below `c` iff every arc point is. -/
theorem arcMax9_lt_iff (d : ℕ → ℤ) (r : ℕ) (c : ℤ) :
    arcMax9 d r < c ↔ ∀ t ≤ 8, d ((r + t) % 16) < c := by
  have h := foldl_max_lt_iff (fun j => d ((r + j) % 16)) c [1, 2, 3, 4, 5, 6, 7, 8] (d (r % 16))
  constructor
  · intro hlt t ht
    obtain ⟨h0, hmem⟩ := h.mp hlt
    rcases Nat.eq_zero_or_pos t with rfl | hpos
    · simpa using h0
    · exact hmem t (by interval_cases t <;> simp)
  · intro hall
    apply h.mpr
    refine ⟨by simpa using hall 0 (by norm_num), ?_⟩
    intro j hj
    have hj8 : j ≤ 8 := by fin_cases hj <;> norm_num
    exact hall j hj8

/-- Threshold comparison against the corner score, in terms of the
9-point arc extrema (pure difference-table form). -/
theorem score_ge_iff_d (d : ℕ → ℤ) (θ : ℕ) :
    ((θ : ℤ) ≤ 0 - b0Code d (-a0Code d) - 1 ↔
      (∃ r < 16, (θ : ℤ) < arcMin9 d r) ∨ (∃ r < 16, arcMax9 d r < -(θ : ℤ))) := by
  rw [b0Code_eq, a0Code_eq]
  have hb := foldl_minStep_iff d (-(θ : ℤ)) (List.range 16)
    (-(List.range 16).foldl (maxStep d) 0)
  have ha := foldl_maxStep_iff d (θ : ℤ) (List.range 16) 0
  constructor
  · intro h
    have hlt : (List.range 16).foldl (minStep d)
        (-(List.range 16).foldl (maxStep d) 0) < -(θ : ℤ) := by omega
    rcases hb.mp hlt with hneg | ⟨r, hr, hlt2⟩
    · have hgt : (θ : ℤ) < (List.range 16).foldl (maxStep d) 0 := by omega
      rcases ha.mp hgt with h0 | ⟨r, hr, h2⟩
      · omega
      · exact Or.inl ⟨r, List.mem_range.mp hr, h2⟩
    · exact Or.inr ⟨r, List.mem_range.mp hr, hlt2⟩
  · intro h
    have hlt : (List.range 16).foldl (minStep d)
        (-(List.range 16).foldl (maxStep d) 0) < -(θ : ℤ) := by
      rcases h with ⟨r, hr, h2⟩ | ⟨r, hr, h2⟩
      · apply hb.mpr
        left
        have := ha.mpr (Or.inr ⟨r, List.mem_range.mpr hr, h2⟩)
        omega
      · exact hb.mpr (Or.inr ⟨r, List.mem_range.mpr hr, h2⟩)
    omega

/-- Threshold comparison against `cornerScore`, in terms of the
9-point arc extrema of the difference table. -/
theorem score_ge_iff (img : Img) (θ : ℕ) (x y : ℤ) :
    ((θ : ℤ) ≤ cornerScore img x y ↔
      (∃ r < 16, (θ : ℤ) < arcMin9 (dVal img x y) r) ∨
      (∃ r < 16, arcMax9 (dVal img x y) r < -(θ : ℤ))) := by
  simp only [cornerScore]
  exact score_ge_iff_d (dVal img x y) θ

/-- On an 8-bit image, a pixel passes the staged FAST test at
threshold `θ` iff its corner score is at least `θ`: `cornerScore` is the
exact FAST strength measure of the detector. -/
theorem isFast_iff_score (img : Img) (θ : ℕ) (x y : ℤ) (hB : ImgByte img) :
    isFastPixel img θ x y = true ↔ (θ : ℤ) ≤ cornerScore img x y := by
  rw [isFastPixel_iff_run, score_ge_iff]
  apply or_congr
  · unfold hasRun9
    constructor
    · rintro ⟨r, hr, hrun⟩
      refine ⟨r, hr, ?_⟩
      rw [arcMin9_gt_iff]
      intro t ht
      exact (darkBit_iff_dVal img θ x y hB _ (Nat.mod_lt _ (by norm_num))).mp (hrun t ht)
    · rintro ⟨r, hr, hgt⟩
      refine ⟨r, hr, ?_⟩
      intro t ht
      exact (darkBit_iff_dVal img θ x y hB _ (Nat.mod_lt _ (by norm_num))).mpr
        ((arcMin9_gt_iff _ _ _).mp hgt t ht)
  · unfold hasRun9
    constructor
    · rintro ⟨r, hr, hrun⟩
      refine ⟨r, hr, ?_⟩
      rw [arcMax9_lt_iff]
      intro t ht
      exact (brightBit_iff_dVal img θ x y hB _ (Nat.mod_lt _ (by norm_num))).mp (hrun t ht)
    · rintro ⟨r, hr, hgt⟩
      refine ⟨r, hr, ?_⟩
      intro t ht
      exact (brightBit_iff_dVal img θ x y hB _ (Nat.mod_lt _ (by norm_num))).mpr
        ((arcMax9_lt_iff _ _ _).mp hgt t ht)


set_option maxHeartbeats 1000000 in
/-- **C1 (amended, proved)**.  For an 8-bit image and a candidate that
passes the FAST test at threshold `θ`, the suppressor accepts iff for
each of the 8 neighbour directions either the **candidate's own**
tile-relative coordinate lies within the fixed margin `4` of the
corresponding tile edge (the code's guard, with the tile-relative `y`
taken from the column table indexed by the tile row), or the neighbour,
if it is itself a FAST candidate at `θ`, scores strictly below the
candidate.  Comparisons against non-candidate neighbours hold
automatically because a non-candidate scores below `θ`. -/
theorem nms_acceptance_amended (img : Img) (θ : ℕ) (xtabGX xtabGY ytabGY : ℤ × ℤ)
    (ax ay : ℤ) (hB : ImgByte img) (hf : isFastPixel img θ ax ay = true) :
    (nmsAccept img xtabGX xtabGY ytabGY ax ay = true ↔
      amendedC1Accept img θ xtabGX xtabGY ytabGY ax ay) := by
  have hfs : (θ : ℤ) ≤ cornerScore img ax ay := (isFast_iff_score img θ ax ay hB).mp hf
  have key : ∀ nx ny : ℤ,
      ((isFastPixel img θ nx ny = true → cornerScore img nx ny < cornerScore img ax ay) →
        cornerScore img nx ny < cornerScore img ax ay) := by
    intro nx ny h
    by_cases hfn : isFastPixel img θ nx ny = true
    · exact h hfn
    · have hlt : ¬ ((θ : ℤ) ≤ cornerScore img nx ny) :=
        fun hc => hfn ((isFast_iff_score img θ nx ny hB).mpr hc)
      push_neg at hlt
      exact lt_of_lt_of_le hlt hfs
  have k1 := key (ax + -1) ay
  have k2 := key ax (ay + -1)
  have k3 := key (ax + 1) ay
  have k4 := key ax (ay + 1)
  have k5 := key (ax + -1) (ay + -1)
  have k6 := key (ax + 1) (ay + -1)
  have k7 := key (ax + -1) (ay + 1)
  have k8 := key (ax + 1) (ay + 1)
  have e1 : ((-1 : ℤ) = 1) = False := eq_false (by norm_num)
  have e2 : ((0 : ℤ) = -1) = False := eq_false (by norm_num)
  have e3 : ((0 : ℤ) = 1) = False := eq_false (by norm_num)
  have e4 : ((1 : ℤ) = -1) = False := eq_false (by norm_num)
  unfold nmsAccept amendedC1Accept neighbors8 codeGuard
  simp only [List.forall_mem_cons, Bool.and_eq_true,
    Bool.or_eq_true, decide_eq_true_eq, gt_iff_lt, ge_iff_le, sub_eq_add_neg, add_zero,
    e1, e2, e3, e4, true_and, false_and, false_or, or_false,
    List.not_mem_nil, false_implies, implies_true, forall_const, and_true]
  constructor
  · rintro ⟨⟨h1, h2⟩, ⟨⟨⟨⟨h3, h4⟩, h5⟩, h6⟩, h7⟩, h8⟩
    exact ⟨h1.imp id (fun h _ => h), h2.imp id (fun h _ => h), h3.imp id (fun h _ => h),
      h4.imp id (fun h _ => h), h5.imp id (fun h _ => h), h6.imp id (fun h _ => h),
      h7.imp id (fun h _ => h), h8.imp id (fun h _ => h)⟩
  · rintro ⟨h1, h2, h3, h4, h5, h6, h7, h8⟩
    exact ⟨⟨h1.imp id k1, h2.imp id k2⟩,
      ⟨⟨⟨⟨h3.imp id k3, h4.imp id k4⟩, h5.imp id k5⟩, h6.imp id k6⟩,
        h7.imp id k7⟩, h8.imp id k8⟩



set_option maxRecDepth 1000000 in
/-- **C1 counterexample**.  On `imgTwo` with threshold 20, tile
`[4, 30) × [4, 30)` and `overlap = 6`, the candidate `(10, 10)` is a
FAST candidate that the claim's rule accepts — its only competing FAST
neighbour `(9, 10)` lies within `overlap` of the tile edge, hence is
exempt — yet the code rejects it: the code's guard uses the constant
margin 4 and the candidate's own coordinates, not `overlap` and the
neighbour's, so the stronger neighbour `(9, 10)` is still compared. -/
theorem nms_acceptance_counterexample :
    claimC1Accept imgTwo 20 6 4 30 4 30 10 10 = true ∧
    isFastPixel imgTwo 20 10 10 = true ∧
    nmsAccept imgTwo (4, 30) (4, 30) (4, 30) 10 10 = false := by decide


set_option maxRecDepth 1000000 in
/-- Witness for `nms_acceptance_amended` at the concrete fixture
`imgTwo`. -/
theorem nms_acceptance_amended_witness :
    (nmsAccept imgTwo (4, 30) (4, 30) (4, 30) 10 10 = true ↔
      amendedC1Accept imgTwo 20 (4, 30) (4, 30) (4, 30) 10 10) :=
  nms_acceptance_amended imgTwo 20 (4, 30) (4, 30) (4, 30) 10 10
    (by
      intro x y
      simp only [imgTwo]
      split
      · norm_num
      · split <;> norm_num)
    (by decide)

end Orb
